import Mathlib

/-!
Verification of the TFX artifact-utility layer (`tfx/types/artifact_utils.py`):
the split-name codec, the single-artifact resolver, and the artifact-collection
JSON codec.  Python strings are modelled as `List Char`; Python exceptions as
`Except` error values carrying the data the exception message is built from.
-/

/-- Python strings, modelled as lists of unicode scalar values. -/
abbrev Str := List Char

/-! ### Split-name codec (`encode_split_names` / `decode_split_names`) -/

/-- Characters matched by the regex class `[A-Za-z0-9]`. -/
def isAlnumChar (c : Char) : Bool :=
  (decide ('A' ≤ c) && decide (c ≤ 'Z')) ||
  (decide ('a' ≤ c) && decide (c ≤ 'z')) ||
  (decide ('0' ≤ c) && decide (c ≤ '9'))

/-- Characters matched by the regex class `[A-Za-z0-9_-]`. -/
def isSplitChar (c : Char) : Bool :=
  isAlnumChar c || c = '_' || c = '-'

/-- A string consisting of one `[A-Za-z0-9]` character followed by any number
of `[A-Za-z0-9_-]` characters (the body of the split-name regex). -/
def validSplitBody : Str → Bool
  | [] => false
  | c :: rest => isAlnumChar c && rest.all isSplitChar

/-- `re.match('^[A-Za-z0-9][A-Za-z0-9_-]*$', s)` as a boolean.  Python's `$`
also matches just before a newline at the very end of the string, so a string
whose body is valid and which carries one trailing newline matches as well. -/
def re_match_split (s : Str) : Bool :=
  validSplitBody s || (s.getLast? == some '\n' && validSplitBody s.dropLast)

/-- Error raised by `encode_split_names`; the Python `ValueError` message
interpolates the offending split name. -/
structure SplitValidationError where
  offending : Str
deriving DecidableEq

/-- The validation loop of `encode_split_names`: the first element failing the
split-name regex, if any. -/
def firstInvalidSplit : List Str → Option Str
  | [] => none
  | s :: rest => if re_match_split s then firstInvalidSplit rest else some s

/-- `','.join(splits)`. -/
def joinComma : List Str → Str
  | [] => []
  | [s] => s
  | s :: rest => s ++ ',' :: joinComma rest

/-- `encode_split_names(splits)`: validate every element against the split-name
regex, raising on the first failure, then join with `','`. -/
def encode_split_names (splits : List Str) : Except SplitValidationError Str :=
  match firstInvalidSplit splits with
  | some bad => .error ⟨bad⟩
  | none => .ok (joinComma splits)

/-- `split_names.split(',')` for non-empty input: split on every occurrence of
`','`, keeping empty tokens. -/
def splitCommaAux : Str → Str → List Str
  | [], acc => [acc.reverse]
  | c :: rest, acc =>
    if c = ',' then acc.reverse :: splitCommaAux rest []
    else splitCommaAux rest (c :: acc)

/-- `decode_split_names(split_names)`: the empty string decodes to the empty
list, any other string is split on `','`. -/
def decode_split_names (split_names : Str) : List Str :=
  if split_names = [] then [] else splitCommaAux split_names []

/-! ### Artifact and single-artifact resolver -/

/-- A typed artifact property value (string or integer), as stored in the
artifact's property map. -/
inductive PropVal where
  | str (s : Str)
  | int (n : Int)
deriving DecidableEq

/-- Modelled from the spec: the `Artifact` collaborator
(`tfx/types/artifact.py`, not under `src/`) is "a polymorphic record with at
least a URI (location string), a set of typed/named properties, and a
`split_names` string property", reimplemented per the spec's design note as a
closed record with the well-known fields plus an explicit property map. -/
structure Artifact where
  uri : Str
  split_names : Str
  properties : List (Str × PropVal)
deriving DecidableEq

/-- Payload of the `ValueError` exceptions raised by the resolver functions:
`get_single_instance` interpolates the observed list length,
`get_split_uri` interpolates the requested split and the list of matching
artifacts. -/
inductive CardinalityError where
  | wrongLength (observed : Nat)
  | wrongSplitMatches (split : Str) (matching : List Artifact)
deriving DecidableEq

/-- `get_single_instance(artifact_list)`: raise unless the list has length
exactly one, else return its sole element. -/
def get_single_instance (artifact_list : List Artifact) :
    Except CardinalityError Artifact :=
  match artifact_list with
  | [a] => .ok a
  | l => .error (.wrongLength l.length)

/-- `get_single_uri(artifact_list) = get_single_instance(artifact_list).uri`. -/
def get_single_uri (artifact_list : List Artifact) :
    Except CardinalityError Str :=
  (get_single_instance artifact_list).map Artifact.uri

/-- `os.path.join(a, b)` on POSIX (`posixpath.join`), two arguments: if `b`
starts with the separator the result is `b`; else if `a` is empty or ends with
the separator the result is `a + b`; else `a + '/' + b`. -/
def os_path_join (a b : Str) : Str :=
  if b.head? = some '/' then b
  else if a = [] ∨ a.getLast? = some '/' then a ++ b
  else a ++ '/' :: b

/-- The filtering loop of `get_split_uri`: all artifacts whose decoded
`split_names` contain the requested split. -/
def matchingArtifacts (artifact_list : List Artifact) (split : Str) :
    List Artifact :=
  artifact_list.filter (fun a => decide (split ∈ decode_split_names a.split_names))

/-- `get_split_uri(artifact_list, split)`: raise unless exactly one artifact
declares the split (the error carries the matching list), else join the unique
match's uri with the split name. -/
def get_split_uri (artifact_list : List Artifact) (split : Str) :
    Except CardinalityError Str :=
  match matchingArtifacts artifact_list split with
  | [a] => .ok (os_path_join a.uri split)
  | ms => .error (.wrongSplitMatches split ms)

/-! ### JSON values

The subset of JSON handled by `json.dumps` / `json.loads` that the artifact
collection codec exchanges.  Numbers are modelled as integers; floating-point
literals are outside the model. -/

/-- A JSON value.  Objects are ordered member lists (Python dicts preserve
insertion order). -/
inductive Json where
  | null
  | bool (b : Bool)
  | int (n : Int)
  | str (s : Str)
  | arr (elems : List Json)
  | obj (members : List (Str × Json))

/-- One hexadecimal digit, lower case, as Python emits in `\uXXXX` escapes. -/
def hexDigitChar (n : Nat) : Char :=
  if 10 ≤ n then Char.ofNat ('a'.toNat + (n - 10)) else Char.ofNat ('0'.toNat + n)

/-- Four hexadecimal digits, most significant first. -/
def hex4 (n : Nat) : Str :=
  [hexDigitChar (n / 4096 % 16), hexDigitChar (n / 256 % 16),
   hexDigitChar (n / 16 % 16), hexDigitChar (n % 16)]

/-- Python `json.dumps` escaping of one string character under the default
`ensure_ascii=True`: two-character escapes for `"`, backslash and the five
control characters that have them; printable ASCII kept as is; everything
else `\uXXXX`, with a surrogate pair for code points above `0xFFFF`. -/
def escapeChar (c : Char) : Str :=
  if c = '"' then ['\\', '"']
  else if c = '\\' then ['\\', '\\']
  else if c = '\n' then ['\\', 'n']
  else if c = '\r' then ['\\', 'r']
  else if c = '\t' then ['\\', 't']
  else if c = Char.ofNat 8 then ['\\', 'b']
  else if c = Char.ofNat 12 then ['\\', 'f']
  else if 0x20 ≤ c.toNat ∧ c.toNat ≤ 0x7E then [c]
  else if c.toNat < 0x10000 then '\\' :: 'u' :: hex4 c.toNat
  else
    ('\\' :: 'u' :: hex4 (0xD800 + (c.toNat - 0x10000) / 0x400)) ++
    ('\\' :: 'u' :: hex4 (0xDC00 + (c.toNat - 0x10000) % 0x400))

/-- A dumped JSON string literal: quote, escaped characters, quote. -/
def dumpStr (s : Str) : Str :=
  '"' :: (s.map escapeChar).flatten ++ ['"']

/-- Decimal digit accumulator for `natDigits`; the fuel argument bounds the
number of divisions by ten. -/
def natDigitsAux : Nat → Nat → Str → Str
  | 0, _, acc => acc
  | fuel + 1, n, acc =>
    if n < 10 then Nat.digitChar n :: acc
    else natDigitsAux fuel (n / 10) (Nat.digitChar (n % 10) :: acc)

/-- The decimal digits of `n`, most significant first. -/
def natDigits (n : Nat) : Str := natDigitsAux (n + 1) n []

/-- Python `repr` of an integer, as emitted by `json.dumps`. -/
def intRepr (n : Int) : Str :=
  if n < 0 then '-' :: natDigits n.natAbs else natDigits n.toNat

mutual

/-- Python `json.dumps` with the default options (`ensure_ascii=True`, item
separator `", "`, key separator `": "`). -/
def dumps : Json → Str
  | .null => 'n' :: 'u' :: ['l', 'l']
  | .bool true => 't' :: 'r' :: ['u', 'e']
  | .bool false => 'f' :: 'a' :: ['l', 's', 'e']
  | .int n => intRepr n
  | .str s => dumpStr s
  | .arr xs => '[' :: dumpsElems xs ++ [']']
  | .obj kvs => '{' :: dumpsMembers kvs ++ ['}']

/-- The `", "`-separated element list of a dumped JSON array. -/
def dumpsElems : List Json → Str
  | [] => []
  | [x] => dumps x
  | x :: y :: xs => dumps x ++ ',' :: ' ' :: dumpsElems (y :: xs)

/-- The `", "`-separated member list of a dumped JSON object. -/
def dumpsMembers : List (Str × Json) → Str
  | [] => []
  | [(k, v)] => dumpStr k ++ ':' :: ' ' :: dumps v
  | (k, v) :: kv :: kvs =>
    dumpStr k ++ ':' :: ' ' :: dumps v ++ ',' :: ' ' :: dumpsMembers (kv :: kvs)

end

/-! ### JSON parsing (`json.loads`) -/

/-- JSON whitespace accepted by Python's decoder. -/
def isJsonWs (c : Char) : Bool :=
  c = ' ' || c = '\t' || c = '\n' || c = '\r'

/-- Drop leading JSON whitespace. -/
def skipWs : Str → Str
  | [] => []
  | c :: rest => if isJsonWs c then skipWs rest else c :: rest

/-- The value of a hexadecimal digit character, if it is one. -/
def hexVal? (c : Char) : Option Nat :=
  if '0' ≤ c ∧ c ≤ '9' then some (c.toNat - '0'.toNat)
  else if 'a' ≤ c ∧ c ≤ 'f' then some (c.toNat - 'a'.toNat + 10)
  else if 'A' ≤ c ∧ c ≤ 'F' then some (c.toNat - 'A'.toNat + 10)
  else none

/-- The value of four hexadecimal digits, most significant first. -/
def hex4Val? (h1 h2 h3 h4 : Char) : Option Nat :=
  match hexVal? h1, hexVal? h2, hexVal? h3, hexVal? h4 with
  | some a, some b, some c, some d => some (((a * 16 + b) * 16 + c) * 16 + d)
  | _, _, _, _ => none

/-- Prepend a decoded character to a string-body parse result. -/
def consChar (c : Char) : Option (Str × Str) → Option (Str × Str)
  | none => none
  | some (s, rest) => some (c :: s, rest)

/-- After a `\uXXXX` escape denoting a high surrogate `n`, look for an
immediately following `\uXXXX` low surrogate and combine the pair into one
code point; otherwise the lone surrogate `n` stands by itself (see
`decodeEscape` on that corner). -/
def decodeLow (n : Nat) : Str → Option (Char × Str)
  | '\\' :: 'u' :: h5 :: h6 :: h7 :: h8 :: r2 =>
    match hex4Val? h5 h6 h7 h8 with
    | none => none
    | some m =>
      if 0xDC00 ≤ m ∧ m ≤ 0xDFFF then
        some (Char.ofNat (0x10000 + (n - 0xD800) * 0x400 + (m - 0xDC00)), r2)
      else some (Char.ofNat n, '\\' :: 'u' :: h5 :: h6 :: h7 :: h8 :: r2)
  | s => some (Char.ofNat n, s)

/-- Decode the four hex digits of a `\uXXXX` escape (the input starts just
after the `u`), combining a high surrogate with a following low one. -/
def decodeU : Str → Option (Char × Str)
  | h1 :: h2 :: h3 :: h4 :: r =>
    match hex4Val? h1 h2 h3 h4 with
    | none => none
    | some n =>
      if 0xD800 ≤ n ∧ n ≤ 0xDBFF then decodeLow n r
      else some (Char.ofNat n, r)
  | _ => none

/-- Decode one backslash escape of a JSON string literal (the input starts
just after the backslash), returning the decoded character and the remaining
input.  Mirrors Python's decoder: the standard two-character escapes and
`\uXXXX`, where a high surrogate immediately followed by a `\uXXXX` low
surrogate combines into one code point.  (Python keeps a lone surrogate as a
string element; Lean characters are unicode scalar values, so that corner —
unreachable from `dumps` output — decodes to `Char.ofNat`'s fallback.) -/
def decodeEscape : Str → Option (Char × Str)
  | [] => none
  | e :: r =>
    if e = '"' then some ('"', r)
    else if e = '\\' then some ('\\', r)
    else if e = '/' then some ('/', r)
    else if e = 'b' then some (Char.ofNat 8, r)
    else if e = 'f' then some (Char.ofNat 12, r)
    else if e = 'n' then some ('\n', r)
    else if e = 'r' then some ('\r', r)
    else if e = 't' then some ('\t', r)
    else if e = 'u' then decodeU r
    else none

/-- Scan the body of a JSON string literal after the opening quote, returning
the decoded characters and the input remaining after the closing quote.
Mirrors Python's strict decoder: raw control characters are rejected and
escapes are decoded via `decodeEscape`.  The fuel bounds the number of scanned
characters; every caller passes `length + 1`, which never runs out because
each step consumes at least one input character. -/
def parseStringBody : Nat → Str → Option (Str × Str)
  | 0, _ => none
  | _ + 1, [] => none
  | fuel + 1, c :: rest =>
    if c = '"' then some ([], rest)
    else if c = '\\' then
      match decodeEscape rest with
      | none => none
      | some (d, r) => consChar d (parseStringBody fuel r)
    else if c.toNat < 0x20 then none
    else consChar c (parseStringBody fuel rest)

/-- The longest leading run of decimal digits. -/
def takeDigits : Str → Str × Str
  | [] => ([], [])
  | c :: rest =>
    if '0' ≤ c ∧ c ≤ '9' then
      ((c :: (takeDigits rest).1), (takeDigits rest).2)
    else ([], c :: rest)

/-- The number denoted by a run of decimal digits. -/
def digitsVal (ds : Str) : Nat :=
  ds.foldl (fun acc c => acc * 10 + (c.toNat - '0'.toNat)) 0

/-- Parse the digit run of a JSON number (no sign), rejecting a leading zero
followed by more digits, and rejecting a following fractional part or
exponent (Python would produce a float there; floats are outside the
model). -/
def parseNumberBody (s1 : Str) : Option (Int × Str) :=
  match takeDigits s1 with
  | ([], _) => none
  | (d :: ds, r) =>
    if d = '0' ∧ ds ≠ [] then none
    else if r.head? = some '.' ∨ r.head? = some 'e' ∨ r.head? = some 'E' then none
    else some (Int.ofNat (digitsVal (d :: ds)), r)

/-- Parse a JSON number at the head of the input.  Only integer literals are
modelled. -/
def parseNumber : Str → Option (Int × Str)
  | [] => none
  | c :: s1 =>
    if c = '-' then
      match parseNumberBody s1 with
      | some (v, r) => some (-v, r)
      | none => none
    else parseNumberBody (c :: s1)

/-- `d[k] = v` on an association list denoting a Python dict: replace the
value at the first occurrence of `k`, else append. -/
def setKey : List (Str × Json) → Str → Json → List (Str × Json)
  | [], k, v => [(k, v)]
  | (k0, v0) :: rest, k, v =>
    if k0 = k then (k0, v) :: rest else (k0, v0) :: setKey rest k v

/-- Build a Python dict from parsed members: a later duplicate key overwrites
the value at the first occurrence, as `json.loads` does. -/
def collapseDups (kvs : List (Str × Json)) : List (Str × Json) :=
  kvs.foldl (fun acc kv => setKey acc kv.1 kv.2) []

mutual

/-- Parse one JSON value at the head of the input (leading whitespace already
skipped).  The fuel bounds the nesting depth; `json_loads` supplies enough
for any input it is given. -/
def parseValue : Nat → Str → Option (Json × Str)
  | 0, _ => none
  | _ + 1, [] => none
  | fuel + 1, c :: r =>
    if c = '"' then
      match parseStringBody (r.length + 1) r with
      | some (cs, rest) => some (.str cs, rest)
      | none => none
    else if c = '[' then
      match skipWs r with
      | [] => none
      | c2 :: r2 =>
        if c2 = ']' then some (.arr [], r2)
        else
          match parseElems fuel (c2 :: r2) with
          | some (xs, rest) => some (.arr xs, rest)
          | none => none
    else if c = '{' then
      match skipWs r with
      | [] => none
      | c2 :: r2 =>
        if c2 = '}' then some (.obj [], r2)
        else
          match parseMembers fuel (c2 :: r2) with
          | some (kvs, rest) => some (.obj (collapseDups kvs), rest)
          | none => none
    else if c = 'n' then
      match r with
      | 'u' :: 'l' :: 'l' :: rest => some (.null, rest)
      | _ => none
    else if c = 't' then
      match r with
      | 'r' :: 'u' :: 'e' :: rest => some (.bool true, rest)
      | _ => none
    else if c = 'f' then
      match r with
      | 'a' :: 'l' :: 's' :: 'e' :: rest => some (.bool false, rest)
      | _ => none
    else
      match parseNumber (c :: r) with
      | some (n, rest) => some (.int n, rest)
      | none => none

/-- Parse the element list of a non-empty JSON array, starting at the first
element and consuming the closing bracket. -/
def parseElems : Nat → Str → Option (List Json × Str)
  | 0, _ => none
  | fuel + 1, s =>
    match parseValue fuel s with
    | none => none
    | some (v, r) =>
      match skipWs r with
      | [] => none
      | c2 :: r2 =>
        if c2 = ',' then
          match parseElems fuel (skipWs r2) with
          | some (vs, r3) => some (v :: vs, r3)
          | none => none
        else if c2 = ']' then some ([v], r2)
        else none

/-- Parse the member list of a non-empty JSON object, starting at the first
key and consuming the closing brace. -/
def parseMembers : Nat → Str → Option (List (Str × Json) × Str)
  | 0, _ => none
  | _ + 1, [] => none
  | fuel + 1, c :: s1 =>
    if c = '"' then
      match parseStringBody (s1.length + 1) s1 with
      | none => none
      | some (k, r) =>
        match skipWs r with
        | [] => none
        | c2 :: r2 =>
          if c2 = ':' then
            match parseValue fuel (skipWs r2) with
            | none => none
            | some (v, r3) =>
              match skipWs r3 with
              | [] => none
              | c3 :: r4 =>
                if c3 = ',' then
                  match parseMembers fuel (skipWs r4) with
                  | some (kvs, r5) => some ((k, v) :: kvs, r5)
                  | none => none
                else if c3 = '}' then some ([(k, v)], r4)
                else none
          else none
    else none

end

/-- Python `json.loads`: strip surrounding whitespace, parse exactly one JSON
value, reject trailing garbage.  `none` where Python raises
`json.JSONDecodeError`. -/
def json_loads (s : Str) : Option Json :=
  match parseValue (s.length + 1) (skipWs s) with
  | some (v, rest) => if skipWs rest = [] then some v else none
  | none => none

/-! ### The Artifact JSON projection (spec-modelled) and the collection codec -/

/-- The key of the Artifact's well-known `uri` field. -/
def uriKey : Str := "uri".toList

/-- The key of the Artifact's well-known `split_names` field. -/
def splitNamesKey : Str := "split_names".toList

/-- The key of the Artifact's property map. -/
def propertiesKey : Str := "properties".toList

/-- A property value projected into JSON. -/
def propValToJson : PropVal → Json
  | .str s => .str s
  | .int n => .int n

/-- Modelled from the spec: the error of the Artifact collaborator's JSON
parser, which "fails with a descriptive error on malformed input". -/
inductive ArtifactError where
  | notObject (v : Json)
  | missingField (field : Str)
  | badFieldType (field : Str) (v : Json)
  | badProperty (key : Str) (v : Json)

/-- Modelled from the spec: the Artifact collaborator's JSON projection
`to_json` (`json_dict` in the source tree), absent from `src/`: "a JSON
object … owned by the Artifact collaborator [that] must round-trip through
its own to_json/from_json" — the well-known fields plus the property map,
projected structurally. -/
def Artifact.json_dict (a : Artifact) : Json :=
  .obj [(uriKey, .str a.uri), (splitNamesKey, .str a.split_names),
        (propertiesKey,
         .obj (a.properties.map (fun kv => (kv.1, propValToJson kv.2))))]

/-- Read one property value back from its JSON projection. -/
def propValFromJson (key : Str) : Json → Except ArtifactError PropVal
  | .str s => .ok (.str s)
  | .int n => .ok (.int n)
  | v => .error (.badProperty key v)

/-- Modelled from the spec: the Artifact collaborator's JSON parser
`from_json` (`parse_from_json_dict` in the source tree), absent from `src/`:
reads the well-known fields and the property map back from a JSON object.
The property sub-object denotes a Python dict, so duplicate keys collapse as
a dict would; malformed input fails with a descriptive error. -/
def Artifact.parse_from_json_dict : Json → Except ArtifactError Artifact
  | .obj kvs => do
    let uriV ← match kvs.lookup uriKey with
      | some v => pure v
      | none => Except.error (.missingField uriKey)
    let uri ← match uriV with
      | .str s => pure s
      | v => Except.error (.badFieldType uriKey v)
    let snV ← match kvs.lookup splitNamesKey with
      | some v => pure v
      | none => Except.error (.missingField splitNamesKey)
    let sn ← match snV with
      | .str s => pure s
      | v => Except.error (.badFieldType splitNamesKey v)
    let propsV ← match kvs.lookup propertiesKey with
      | some v => pure v
      | none => Except.error (.missingField propertiesKey)
    match propsV with
    | .obj pkvs => do
      let props ← (collapseDups pkvs).mapM
        (fun kv => (propValFromJson kv.1 kv.2).map (fun p => (kv.1, p)))
      pure ⟨uri, sn, props⟩
    | v => Except.error (.badFieldType propertiesKey v)
  | v => Except.error (.notObject v)

/-- Error raised by `parse_artifact_dict`; conceptually the spec's
`FormatError`.  `jsonDecode` stands for Python's `json.JSONDecodeError`;
`notJsonObject` for the `AttributeError` hit when `.items()` is called on a
non-dict; `channelNotArray` for the error hit when a channel's payload is not
a list; `artifactError` for an error propagated unchanged out of
`Artifact.parse_from_json_dict` — the loop in the source adds no channel or
index context. -/
inductive FormatError where
  | jsonDecode
  | notJsonObject (v : Json)
  | channelNotArray (channel : Str) (v : Json)
  | artifactError (e : ArtifactError)

/-- The per-channel body of the `parse_artifact_dict` loop: parse each array
element through the Artifact JSON parser, in order. -/
def parseChannel (channel : Str) : Json → Except FormatError (List Artifact)
  | .arr l =>
    l.mapM (fun v => (Artifact.parse_from_json_dict v).mapError .artifactError)
  | v => .error (.channelNotArray channel v)

/-- `parse_artifact_dict(json_str)`: parse the text as JSON, iterate the
top-level object's items in order, and map each channel's array element-wise
through the Artifact JSON parser. -/
def parse_artifact_dict (json_str : Str) :
    Except FormatError (List (Str × List Artifact)) :=
  match json_loads json_str with
  | none => .error .jsonDecode
  | some (.obj kvs) =>
    kvs.mapM (fun kv => (parseChannel kv.1 kv.2).map (fun arts => (kv.1, arts)))
  | some v => .error (.notJsonObject v)

/-- `jsonify_artifact_dict(artifact_dict)`: project each channel's artifact
list element-wise through the Artifact JSON projection and dump the result. -/
def jsonify_artifact_dict (artifact_dict : List (Str × List Artifact)) : Str :=
  dumps (.obj (artifact_dict.map
    (fun kv => (kv.1, .arr (kv.2.map Artifact.json_dict)))))

/-! ### Well-formedness of JSON values and collections -/

/-- No two members share a key: the member list denotes a Python dict. -/
def nodupKeys : List (Str × Json) → Bool
  | [] => true
  | (k, _) :: rest => !(rest.any (fun kv => kv.1 == k)) && nodupKeys rest

mutual

/-- Every object inside the value has pairwise distinct keys, i.e. the value
is one a Python dict structure can denote. -/
def jsonWF : Json → Bool
  | .null => true
  | .bool _ => true
  | .int _ => true
  | .str _ => true
  | .arr xs => jsonWFList xs
  | .obj kvs => nodupKeys kvs && jsonWFMembers kvs

/-- `jsonWF` on every element. -/
def jsonWFList : List Json → Bool
  | [] => true
  | x :: xs => jsonWF x && jsonWFList xs

/-- `jsonWF` on every member value. -/
def jsonWFMembers : List (Str × Json) → Bool
  | [] => true
  | (_, v) :: kvs => jsonWF v && jsonWFMembers kvs

end

mutual

/-- Recursion depth sufficient for `parseValue` to parse `dumps v`. -/
def fuelFor : Json → Nat
  | .null => 1
  | .bool _ => 1
  | .int _ => 1
  | .str _ => 1
  | .arr xs => 1 + fuelForElems xs
  | .obj kvs => 1 + fuelForMembers kvs

/-- Fuel for the element list of an array. -/
def fuelForElems : List Json → Nat
  | [] => 0
  | x :: xs => 1 + fuelFor x + fuelForElems xs

/-- Fuel for the member list of an object. -/
def fuelForMembers : List (Str × Json) → Nat
  | [] => 0
  | (_, v) :: kvs => 1 + fuelFor v + fuelForMembers kvs

end

/-- No two channels of a collection share a name: the collection denotes a
Python dict. -/
def nodupChannels : List (Str × List Artifact) → Bool
  | [] => true
  | (k, _) :: rest => !(rest.any (fun kv => kv.1 == k)) && nodupChannels rest

/-- What may legally follow a complete JSON value inside a dumped document:
end of input, or an item separator or closing bracket/brace. -/
def restBoundary (rest : Str) : Prop :=
  rest = [] ∨ ∃ t, rest = ',' :: t ∨ rest = ']' :: t ∨ rest = '}' :: t

/-! ## Theorems -/

/-! ### Split-name codec lemmas -/

theorem validSplitBody_no_comma {s : Str} (h : validSplitBody s = true) :
    ',' ∉ s := by
  cases s with
  | nil => simp
  | cons c rest =>
    simp only [validSplitBody, Bool.and_eq_true, List.all_eq_true] at h
    intro hmem
    rcases List.mem_cons.mp hmem with rfl | hmem
    · exact absurd h.1 (by decide)
    · exact absurd (h.2 _ hmem) (by decide)

theorem validSplitBody_ne_nil {s : Str} (h : validSplitBody s = true) :
    s ≠ [] := by
  cases s with
  | nil => simp [validSplitBody] at h
  | cons c rest => simp

theorem re_match_split_no_comma {s : Str} (h : re_match_split s = true) :
    ',' ∉ s ∧ s ≠ [] := by
  simp only [re_match_split, Bool.or_eq_true, Bool.and_eq_true, beq_iff_eq] at h
  rcases h with h | ⟨hlast, hbody⟩
  · exact ⟨validSplitBody_no_comma h, validSplitBody_ne_nil h⟩
  · have hne : s ≠ [] := by
      intro hnil; rw [hnil] at hlast; simp at hlast
    refine ⟨?_, hne⟩
    intro hmem
    have hsplit : s.dropLast ++ ['\n'] = s := List.dropLast_append_getLast? _ hlast
    rw [← hsplit] at hmem
    rcases List.mem_append.mp hmem with hmem' | hmem'
    · exact validSplitBody_no_comma hbody hmem'
    · simp at hmem'

theorem firstInvalidSplit_eq_none_iff (S : List Str) :
    firstInvalidSplit S = none ↔ ∀ s ∈ S, re_match_split s = true := by
  induction S with
  | nil => simp [firstInvalidSplit]
  | cons x rest ih =>
    by_cases hx : re_match_split x = true
    · simp [firstInvalidSplit, hx, ih]
    · simp [firstInvalidSplit, hx]

theorem firstInvalidSplit_append {S₁ S₂ : List Str} {bad : Str}
    (h₁ : ∀ s ∈ S₁, re_match_split s = true) (hbad : re_match_split bad = false) :
    firstInvalidSplit (S₁ ++ bad :: S₂) = some bad := by
  induction S₁ with
  | nil => simp [firstInvalidSplit, hbad]
  | cons x rest ih =>
    have hx := h₁ x (List.mem_cons_self x rest)
    simp only [List.cons_append, firstInvalidSplit, hx, if_true]
    exact ih (fun s hs => h₁ s (List.mem_cons_of_mem x hs))

theorem joinComma_cons₂ (s t : Str) (rest : List Str) :
    joinComma (s :: t :: rest) = s ++ ',' :: joinComma (t :: rest) := rfl

theorem joinComma_ne_nil {S : List Str} (hne : S ≠ []) (h : ∀ s ∈ S, s ≠ []) :
    joinComma S ≠ [] := by
  cases S with
  | nil => exact absurd rfl hne
  | cons x rest =>
    cases rest with
    | nil => exact h x (by simp)
    | cons y rest' =>
      rw [joinComma_cons₂]
      rcases h x (by simp) with _
      cases hx : x with
      | nil => exact absurd hx (h x (by simp))
      | cons c cs => simp

theorem splitCommaAux_no_comma {s : Str} (acc : Str) (h : ',' ∉ s) :
    splitCommaAux s acc = [acc.reverse ++ s] := by
  induction s generalizing acc with
  | nil => simp [splitCommaAux]
  | cons c rest ih =>
    have hc : c ≠ ',' := fun hc => h (hc ▸ List.mem_cons_self c rest)
    have hrest : ',' ∉ rest := fun hm => h (List.mem_cons_of_mem c hm)
    simp only [splitCommaAux, if_neg (fun hh => hc hh)]
    rw [ih _ hrest]
    simp

theorem splitCommaAux_append {s : Str} (t acc : Str) (h : ',' ∉ s) :
    splitCommaAux (s ++ ',' :: t) acc = (acc.reverse ++ s) :: splitCommaAux t [] := by
  induction s generalizing acc with
  | nil => simp [splitCommaAux]
  | cons c rest ih =>
    have hc : c ≠ ',' := fun hc => h (hc ▸ List.mem_cons_self c rest)
    have hrest : ',' ∉ rest := fun hm => h (List.mem_cons_of_mem c hm)
    simp only [List.cons_append, splitCommaAux, List.append_eq,
      if_neg (fun hh => hc hh)]
    rw [ih _ hrest]
    simp

theorem splitCommaAux_joinComma {S : List Str} (hne : S ≠ [])
    (hc : ∀ s ∈ S, ',' ∉ s) : splitCommaAux (joinComma S) [] = S := by
  induction S with
  | nil => exact absurd rfl hne
  | cons x rest ih =>
    cases rest with
    | nil => simp [joinComma, splitCommaAux_no_comma [] (hc x (by simp))]
    | cons y rest' =>
      rw [joinComma_cons₂, splitCommaAux_append _ _ (hc x (by simp))]
      simp only [List.reverse_nil, List.nil_append]
      rw [ih (by simp) (fun s hs => hc s (List.mem_cons_of_mem x hs))]

/-- C1: for any sequence of valid split names, decoding the encoding gives
back the sequence; the empty sequence encodes to the empty string, and the
empty string decodes to the empty sequence. -/
theorem C1_split_name_roundtrip :
    (∀ S : List Str, (∀ s ∈ S, re_match_split s = true) →
      (encode_split_names S).map decode_split_names = .ok S)
    ∧ encode_split_names [] = .ok []
    ∧ decode_split_names [] = [] := by
  refine ⟨?_, rfl, rfl⟩
  intro S hS
  have hnone : firstInvalidSplit S = none := (firstInvalidSplit_eq_none_iff S).mpr hS
  simp only [encode_split_names, hnone, Except.map]
  cases hS' : S with
  | nil => simp [joinComma, decode_split_names]
  | cons x rest =>
    rw [← hS']
    have hnil : ∀ s ∈ S, s ≠ [] := fun s hs => (re_match_split_no_comma (hS s hs)).2
    have hcom : ∀ s ∈ S, ',' ∉ s := fun s hs => (re_match_split_no_comma (hS s hs)).1
    have hjoin : joinComma S ≠ [] := joinComma_ne_nil (by rw [hS']; simp) hnil
    simp only [decode_split_names, if_neg hjoin]
    rw [splitCommaAux_joinComma (by rw [hS']; simp) hcom]

/-- C1 witness: the round trip evaluated on `["train", "eval"]`. -/
theorem C1_split_name_roundtrip_witness :
    (encode_split_names [['t','r','a','i','n'], ['e','v','a','l']]).map
      decode_split_names = .ok [['t','r','a','i','n'], ['e','v','a','l']] :=
  C1_split_name_roundtrip.1 _ (by decide)

/-- C4: encoding raises a `ValidationError` iff some element fails the
split-name regex; the error identifies the first offending element; when all
elements are valid the result is the comma-join in order (and no output
accompanies a failure, the result being either an error or a value). -/
theorem C4_encode_validation :
    ∀ S : List Str,
      ((∃ s ∈ S, re_match_split s = false) ↔ ¬ ∃ e, encode_split_names S = .ok e)
      ∧ (∀ S₁ bad S₂, S = S₁ ++ bad :: S₂ → (∀ s ∈ S₁, re_match_split s = true) →
          re_match_split bad = false → encode_split_names S = .error ⟨bad⟩)
      ∧ ((∀ s ∈ S, re_match_split s = true) →
          encode_split_names S = .ok (joinComma S)) := by
  intro S
  refine ⟨?_, ?_, ?_⟩
  · constructor
    · rintro ⟨s, hs, hbad⟩ ⟨e, he⟩
      have : firstInvalidSplit S = none := by
        by_contra hne
        rcases Option.ne_none_iff_exists'.mp hne with ⟨b, hb⟩
        simp [encode_split_names, hb] at he
      have := (firstInvalidSplit_eq_none_iff S).mp this s hs
      rw [this] at hbad; simp at hbad
    · intro h
      by_contra hno
      push_neg at hno
      have hall : ∀ s ∈ S, re_match_split s = true := by
        intro s hs
        have := hno s hs
        revert this
        cases re_match_split s <;> simp
      have hnone := (firstInvalidSplit_eq_none_iff S).mpr hall
      exact h ⟨joinComma S, by simp [encode_split_names, hnone]⟩
  · rintro S₁ bad S₂ rfl h₁ hbad
    rw [encode_split_names, firstInvalidSplit_append h₁ hbad]
  · intro hall
    simp [encode_split_names, (firstInvalidSplit_eq_none_iff S).mpr hall]

/-- C4 witness: the three conjuncts evaluated on concrete inputs — a list
with an invalid second element errors on that element, and a valid list
encodes to the comma-join. -/
theorem C4_encode_validation_witness :
    (¬ ∃ e, encode_split_names [['o','k'], ['-','b','a','d']] = .ok e)
    ∧ encode_split_names [['o','k'], ['-','b','a','d']] = .error ⟨['-','b','a','d']⟩
    ∧ encode_split_names [['a'], ['b']] = .ok ['a', ',', 'b'] :=
  ⟨(C4_encode_validation _).1.mp ⟨['-','b','a','d'], by decide, by decide⟩,
   (C4_encode_validation _).2.1 [['o','k']] ['-','b','a','d'] [] rfl
     (by decide) (by decide),
   (C4_encode_validation _).2.2 (by decide)⟩

theorem splitCommaAux_ne_nil (s acc : Str) : splitCommaAux s acc ≠ [] := by
  induction s generalizing acc with
  | nil => simp [splitCommaAux]
  | cons c rest ih =>
    simp only [splitCommaAux]
    split
    · simp
    · exact ih _

theorem joinComma_cons₂' (s : Str) (L : List Str) (hL : L ≠ []) :
    joinComma (s :: L) = s ++ ',' :: joinComma L := by
  cases L with
  | nil => exact absurd rfl hL
  | cons t ts => rfl

theorem joinComma_splitCommaAux (s acc : Str) :
    joinComma (splitCommaAux s acc) = acc.reverse ++ s := by
  induction s generalizing acc with
  | nil => simp [splitCommaAux, joinComma]
  | cons c rest ih =>
    simp only [splitCommaAux]
    split
    · rename_i hc
      cases hsp : splitCommaAux rest [] with
      | nil => exact absurd hsp (splitCommaAux_ne_nil rest [])
      | cons t ts =>
        rw [← hsp, joinComma_cons₂' _ _ (splitCommaAux_ne_nil rest []), ih]
        simp [hc]
    · rw [ih]
      simp

theorem splitCommaAux_length (s acc : Str) :
    (splitCommaAux s acc).length = s.count ',' + 1 := by
  induction s generalizing acc with
  | nil => simp [splitCommaAux]
  | cons c rest ih =>
    simp only [splitCommaAux]
    split
    · rename_i hc
      simp [List.count_cons, hc, ih]
    · rename_i hc
      rw [ih]
      simp only [List.count_cons]
      have : (c == ',') = false := by
        simp only [beq_eq_false_iff_ne]; exact fun h => hc h
      simp [this]

theorem splitCommaAux_mem_no_comma {s acc : Str} (hacc : ',' ∉ acc) :
    ∀ t ∈ splitCommaAux s acc, ',' ∉ t := by
  induction s generalizing acc with
  | nil =>
    intro t ht
    simp only [splitCommaAux, List.mem_singleton] at ht
    subst ht
    simpa using hacc
  | cons c rest ih =>
    intro t ht
    simp only [splitCommaAux] at ht
    split at ht
    · rcases List.mem_cons.mp ht with rfl | ht'
      · simpa using hacc
      · exact ih (by simp) t ht'
    · rename_i hc
      exact ih (by simpa using ⟨fun h => hc h.symm, hacc⟩) t ht

/-- C9: `decode_split_names` is total, and on every non-empty string it
returns exactly the comma-separated tokens: comma-joining them restores the
string, no token contains a comma, there is one more token than there are
commas; `","` decodes to two empty tokens and `""` to no tokens. -/
theorem C9_decode_total :
    (∀ s : Str, s ≠ [] →
      joinComma (decode_split_names s) = s
      ∧ (∀ t ∈ decode_split_names s, ',' ∉ t)
      ∧ (decode_split_names s).length = s.count ',' + 1)
    ∧ decode_split_names [','] = [[], []]
    ∧ decode_split_names [] = [] := by
  refine ⟨?_, by decide, rfl⟩
  intro s hs
  simp only [decode_split_names, if_neg hs]
  exact ⟨by simpa using joinComma_splitCommaAux s [],
    splitCommaAux_mem_no_comma (by simp),
    splitCommaAux_length s []⟩

/-- C9 witness: the characterization evaluated on `"x,,y"`. -/
theorem C9_decode_total_witness :
    joinComma (decode_split_names ['x', ',', ',', 'y']) = ['x', ',', ',', 'y']
    ∧ (∀ t ∈ decode_split_names ['x', ',', ',', 'y'], ',' ∉ t)
    ∧ (decode_split_names ['x', ',', ',', 'y']).length =
        (['x', ',', ',', 'y'] : Str).count ',' + 1 :=
  C9_decode_total.1 ['x', ',', ',', 'y'] (by decide)

/-! ### Single-artifact resolver -/

/-- C6: `get_single_instance` returns the sole element of a length-one list
unchanged and otherwise fails with a `CardinalityError` carrying the observed
list length. -/
theorem C6_single_instance :
    ∀ l : List Artifact,
      (∀ a, l = [a] → get_single_instance l = .ok a)
      ∧ (l.length ≠ 1 → get_single_instance l = .error (.wrongLength l.length)) := by
  intro l
  match l with
  | [] => exact ⟨fun a h => by simp at h, fun _ => rfl⟩
  | [a] =>
    refine ⟨fun b h => by injection h with h1 _; subst h1; rfl,
      fun h => absurd rfl h⟩
  | a :: b :: rest => exact ⟨fun c h => by simp at h, fun _ => rfl⟩

/-- C6 witness: the empty list fails with observed length `0`, a singleton
returns its element. -/
theorem C6_single_instance_witness :
    get_single_instance [] = .error (.wrongLength 0)
    ∧ get_single_instance [⟨['u'], [], []⟩] = .ok ⟨['u'], [], []⟩ :=
  ⟨(C6_single_instance []).2 (by decide),
   (C6_single_instance [⟨['u'], [], []⟩]).1 _ rfl⟩

/-- C7: `get_single_uri` is extensionally the `uri` projection of
`get_single_instance`: it returns the sole element's uri on a length-one list
and fails with exactly the same `CardinalityError` otherwise. -/
theorem C7_single_uri_refines_single_instance :
    ∀ l : List Artifact,
      get_single_uri l = (get_single_instance l).map Artifact.uri
      ∧ (∀ a, l = [a] → get_single_uri l = .ok a.uri)
      ∧ (l.length ≠ 1 → get_single_uri l = .error (.wrongLength l.length)) := by
  intro l
  refine ⟨rfl, ?_, ?_⟩
  · rintro a rfl
    rfl
  · intro h
    rw [get_single_uri, (C6_single_instance l).2 h]
    rfl

/-- C7 witness: evaluated on a two-element list (same failure) and a
singleton (the uri projection). -/
theorem C7_single_uri_witness :
    get_single_uri [⟨['u'], [], []⟩, ⟨['v'], [], []⟩] = .error (.wrongLength 2)
    ∧ get_single_uri [⟨['u'], [], []⟩] = .ok ['u'] :=
  ⟨(C7_single_uri_refines_single_instance _).2.2 (by decide),
   (C7_single_uri_refines_single_instance _).2.1 _ rfl⟩

theorem matchingArtifacts_length (l : List Artifact) (split : Str) :
    (matchingArtifacts l split).length =
      l.countP (fun a => decide (split ∈ decode_split_names a.split_names)) :=
  (List.countP_eq_length_filter _ _).symm

/-- C2: `get_split_uri` succeeds iff exactly one artifact in the list
declares the requested split among its decoded split names; on success it
returns that artifact's uri joined with the split, and on failure the
`CardinalityError` carries the list of matching artifacts themselves. -/
theorem C2_split_resolution :
    ∀ (l : List Artifact) (split : Str),
      ((∃ u, get_split_uri l split = .ok u) ↔
        l.countP (fun a => decide (split ∈ decode_split_names a.split_names)) = 1)
      ∧ (∀ a, matchingArtifacts l split = [a] →
          get_split_uri l split = .ok (os_path_join a.uri split))
      ∧ ((matchingArtifacts l split).length ≠ 1 →
          get_split_uri l split =
            .error (.wrongSplitMatches split (matchingArtifacts l split))) := by
  intro l split
  refine ⟨?_, ?_, ?_⟩
  · rw [← matchingArtifacts_length, List.length_eq_one]
    constructor
    · rintro ⟨u, hu⟩
      rw [get_split_uri] at hu
      rcases hm : matchingArtifacts l split with _ | ⟨a, _ | ⟨b, ms⟩⟩
      · rw [hm] at hu; exact absurd hu (by simp)
      · exact ⟨a, rfl⟩
      · rw [hm] at hu; exact absurd hu (by simp)
    · rintro ⟨a, ha⟩
      exact ⟨os_path_join a.uri split, by rw [get_split_uri, ha]⟩
  · intro a ha
    rw [get_split_uri, ha]
  · intro hlen
    rw [get_split_uri]
    rcases hm : matchingArtifacts l split with _ | ⟨a, _ | ⟨b, ms⟩⟩
    · rfl
    · rw [hm] at hlen; exact absurd rfl hlen
    · rfl

/-- C2 witness: two artifacts declaring `train` and `eval`; resolving
`train` joins the first uri, resolving `test` fails carrying the (empty)
matching list. -/
theorem C2_split_resolution_witness :
    get_split_uri
        [⟨['/','a'], ['t','r','a','i','n'], []⟩, ⟨['/','b'], ['e','v','a','l'], []⟩]
        ['t','r','a','i','n'] = .ok ['/','a','/','t','r','a','i','n']
    ∧ get_split_uri
        [⟨['/','a'], ['t','r','a','i','n'], []⟩, ⟨['/','b'], ['e','v','a','l'], []⟩]
        ['t','e','s','t'] =
        .error (.wrongSplitMatches ['t','e','s','t'] []) :=
  ⟨(C2_split_resolution _ _).2.1 ⟨['/','a'], ['t','r','a','i','n'], []⟩ (by decide),
   by
    have h := (C2_split_resolution
      [⟨['/','a'], ['t','r','a','i','n'], []⟩, ⟨['/','b'], ['e','v','a','l'], []⟩]
      ['t','e','s','t']).2.2 (by decide)
    rwa [show matchingArtifacts
      [⟨['/','a'], ['t','r','a','i','n'], []⟩, ⟨['/','b'], ['e','v','a','l'], []⟩]
      ['t','e','s','t'] = [] from by decide] at h⟩

/-- C10: split matching is exact token equality against the decoded
split-name list — an artifact is in the matching set iff the requested split
is literally one of its decoded split names; in particular an artifact whose
split names decode to `["train2"]` is not a match for `"train"`, nor is
`["train"]` a match for `"train2"`. -/
theorem C10_exact_split_match :
    (∀ (l : List Artifact) (split : Str) (a : Artifact),
      a ∈ matchingArtifacts l split ↔
        a ∈ l ∧ split ∈ decode_split_names a.split_names)
    ∧ get_split_uri [⟨['/','x'], ['t','r','a','i','n','2'], []⟩]
        ['t','r','a','i','n'] =
        .error (.wrongSplitMatches ['t','r','a','i','n'] [])
    ∧ get_split_uri [⟨['/','x'], ['t','r','a','i','n'], []⟩]
        ['t','r','a','i','n','2'] =
        .error (.wrongSplitMatches ['t','r','a','i','n','2'] []) := by
  refine ⟨?_, by rfl, by rfl⟩
  intro l split a
  rw [matchingArtifacts, List.mem_filter]
  simp

/-! ### Path joining (C8) -/

/-- C8 counterexample: with the empty URI (which the data model allows, "may
be empty before materialization") the join step is not insensitive to a
trailing separator: `os.path.join("", "train") = "train"` while
`os.path.join("/", "train") = "/train"`. -/
theorem C8_counterexample :
    os_path_join [] ['t','r','a','i','n'] = ['t','r','a','i','n']
    ∧ os_path_join ([] ++ ['/']) ['t','r','a','i','n'] =
        ['/','t','r','a','i','n']
    ∧ os_path_join [] ['t','r','a','i','n'] ≠
        os_path_join ([] ++ ['/']) ['t','r','a','i','n'] := by
  refine ⟨by decide, by decide, by decide⟩

/-- C8 amended: for a non-empty URI that does not already end with the
separator, joining with a valid split name yields the same path whether or
not a trailing separator is appended to the URI (both equal
`uri ++ "/" ++ split`). -/
theorem C8_join_trailing_separator :
    ∀ (u s : Str), re_match_split s = true → u ≠ [] →
      u.getLast? ≠ some '/' →
      os_path_join u s = os_path_join (u ++ ['/']) s
      ∧ os_path_join u s = u ++ '/' :: s := by
  intro u s hs hne hlast
  have hhead : ¬ (s.head? = some '/') := by
    cases s with
    | nil => simp
    | cons c rest =>
      simp only [List.head?_cons, Option.some.injEq]
      intro hh
      subst hh
      simp only [re_match_split, Bool.or_eq_true, Bool.and_eq_true,
        beq_iff_eq] at hs
      rcases hs with hb | ⟨hlast', hb⟩
      · simp only [validSplitBody, Bool.and_eq_true] at hb
        exact absurd hb.1 (by decide)
      · cases rest with
        | nil => simp at hlast'
        | cons d ds =>
          rw [List.dropLast_cons₂] at hb
          simp only [validSplitBody, Bool.and_eq_true] at hb
          exact absurd hb.1 (by decide)
  have h1 : os_path_join u s = u ++ '/' :: s := by
    rw [os_path_join, if_neg hhead, if_neg (by push_neg; exact ⟨hne, hlast⟩)]
  refine ⟨?_, h1⟩
  rw [h1, os_path_join, if_neg hhead,
    if_pos (Or.inr (List.getLast?_concat u))]
  simp

/-- C8 amended witness: evaluated at `u = "a"`, `s = "train"`. -/
theorem C8_join_trailing_separator_witness :
    os_path_join ['a'] ['t','r','a','i','n'] =
      os_path_join (['a'] ++ ['/']) ['t','r','a','i','n']
    ∧ os_path_join ['a'] ['t','r','a','i','n'] =
      ['a'] ++ '/' :: ['t','r','a','i','n'] :=
  C8_join_trailing_separator ['a'] ['t','r','a','i','n']
    (by decide) (by decide) (by decide)

/-! ### JSON string escaping round-trip -/

theorem char_toNat_valid (c : Char) :
    c.toNat < 0xd800 ∨ (0xdfff < c.toNat ∧ c.toNat < 0x110000) := c.valid

theorem hexVal_hexDigitChar : ∀ d : Nat, d < 16 → hexVal? (hexDigitChar d) = some d := by
  decide

theorem hex4Val_hex4 (n : Nat) (h : n < 0x10000) :
    hex4Val? (hexDigitChar (n / 4096 % 16)) (hexDigitChar (n / 256 % 16))
      (hexDigitChar (n / 16 % 16)) (hexDigitChar (n % 16)) = some n := by
  have h1 := hexVal_hexDigitChar (n / 4096 % 16) (by omega)
  have h2 := hexVal_hexDigitChar (n / 256 % 16) (by omega)
  have h3 := hexVal_hexDigitChar (n / 16 % 16) (by omega)
  have h4 := hexVal_hexDigitChar (n % 16) (by omega)
  simp only [hex4Val?, h1, h2, h3, h4]
  congr 1
  omega

theorem decodeEscape_not_special {e : Char} (r : Str)
    (h : e ≠ '"' ∧ e ≠ '\\' ∧ e ≠ '/' ∧ e ≠ 'b' ∧ e ≠ 'f' ∧ e ≠ 'n' ∧ e ≠ 'r'
      ∧ e ≠ 't' ∧ e ≠ 'u') :
    decodeEscape (e :: r) = none := by
  obtain ⟨n1, n2, n3, n4, n5, n6, n7, n8, n9⟩ := h
  simp only [decodeEscape, if_neg n1, if_neg n2, if_neg n3, if_neg n4, if_neg n5,
    if_neg n6, if_neg n7, if_neg n8, if_neg n9]

theorem decodeEscape_u (r : Str) : decodeEscape ('u' :: r) = decodeU r := by
  simp [decodeEscape]

theorem parseStringBody_quote (fuel : Nat) (rest : Str) :
    parseStringBody (fuel + 1) ('"' :: rest) = some ([], rest) := by
  simp [parseStringBody]

theorem parseStringBody_backslash (fuel : Nat) (rest : Str) :
    parseStringBody (fuel + 1) ('\\' :: rest) =
      match decodeEscape rest with
      | none => none
      | some (d, r) => consChar d (parseStringBody fuel r) := by
  simp [parseStringBody]

theorem parseStringBody_plain (fuel : Nat) {c : Char} (rest : Str)
    (h1 : ¬ (c = '"')) (h2 : ¬ (c = '\\')) (h3 : ¬ (c.toNat < 0x20)) :
    parseStringBody (fuel + 1) (c :: rest) =
      consChar c (parseStringBody fuel rest) := by
  simp only [parseStringBody]
  rw [if_neg h1, if_neg h2, if_neg h3]

theorem decodeU_bmp {h1 h2 h3 h4 : Char} {n : Nat} (r : Str)
    (hx : hex4Val? h1 h2 h3 h4 = some n) (hns : ¬(0xD800 ≤ n ∧ n ≤ 0xDBFF)) :
    decodeU (h1 :: h2 :: h3 :: h4 :: r) = some (Char.ofNat n, r) := by
  simp only [decodeU, hx]
  rw [if_neg hns]

theorem decodeU_pair {h1 h2 h3 h4 h5 h6 h7 h8 : Char} {n m : Nat} (r2 : Str)
    (hx1 : hex4Val? h1 h2 h3 h4 = some n) (hx2 : hex4Val? h5 h6 h7 h8 = some m)
    (hhi : 0xD800 ≤ n ∧ n ≤ 0xDBFF) (hlo : 0xDC00 ≤ m ∧ m ≤ 0xDFFF) :
    decodeU (h1 :: h2 :: h3 :: h4 :: '\\' :: 'u' :: h5 :: h6 :: h7 :: h8 :: r2) =
      some (Char.ofNat (0x10000 + (n - 0xD800) * 0x400 + (m - 0xDC00)), r2) := by
  simp only [decodeU, hx1]
  rw [if_pos hhi]
  simp only [decodeLow, hx2]
  rw [if_pos hlo]

set_option maxHeartbeats 1000000 in
theorem parseStringBody_escapeChar (c : Char) (fuel : Nat) (t : Str) :
    parseStringBody (fuel + 1) (escapeChar c ++ t) =
      consChar c (parseStringBody fuel t) := by
  have hval := char_toNat_valid c
  unfold escapeChar
  split_ifs with h1 h2 h3 h4 h5 h6 h7 h8 h9
  · subst h1
    show parseStringBody (fuel + 1) ('\\' :: '"' :: t) = _
    rw [parseStringBody_backslash]; simp [decodeEscape]
  · subst h2
    show parseStringBody (fuel + 1) ('\\' :: '\\' :: t) = _
    rw [parseStringBody_backslash]; simp [decodeEscape]
  · subst h3
    show parseStringBody (fuel + 1) ('\\' :: 'n' :: t) = _
    rw [parseStringBody_backslash]; simp [decodeEscape]
  · subst h4
    show parseStringBody (fuel + 1) ('\\' :: 'r' :: t) = _
    rw [parseStringBody_backslash]; simp [decodeEscape]
  · subst h5
    show parseStringBody (fuel + 1) ('\\' :: 't' :: t) = _
    rw [parseStringBody_backslash]; simp [decodeEscape]
  · rw [h6]
    show parseStringBody (fuel + 1) ('\\' :: 'b' :: t) = _
    rw [parseStringBody_backslash]; simp [decodeEscape]
  · rw [h7]
    show parseStringBody (fuel + 1) ('\\' :: 'f' :: t) = _
    rw [parseStringBody_backslash]; simp [decodeEscape]
  · -- printable ASCII: the plain-character branch fires
    show parseStringBody (fuel + 1) (c :: t) = _
    rw [parseStringBody_plain fuel t h1 h2 (by omega)]
  · -- BMP non-printable: one `\uXXXX` escape
    show parseStringBody (fuel + 1)
      ('\\' :: 'u' :: hexDigitChar (c.toNat / 4096 % 16)
        :: hexDigitChar (c.toNat / 256 % 16)
        :: hexDigitChar (c.toNat / 16 % 16) :: hexDigitChar (c.toNat % 16) :: t) = _
    rw [parseStringBody_backslash, decodeEscape_u,
      decodeU_bmp t (hex4Val_hex4 _ h9) (by omega)]
    simp
  · -- astral plane: a surrogate pair of `\uXXXX` escapes
    have hlt : c.toNat < 0x110000 := by
      rcases hval with h | h
      · omega
      · exact h.2
    have hge : 0x10000 ≤ c.toNat := by omega
    show parseStringBody (fuel + 1)
      ('\\' :: 'u' :: hexDigitChar ((0xD800 + (c.toNat - 0x10000) / 0x400) / 4096 % 16)
        :: hexDigitChar ((0xD800 + (c.toNat - 0x10000) / 0x400) / 256 % 16)
        :: hexDigitChar ((0xD800 + (c.toNat - 0x10000) / 0x400) / 16 % 16)
        :: hexDigitChar ((0xD800 + (c.toNat - 0x10000) / 0x400) % 16)
        :: '\\' :: 'u'
        :: hexDigitChar ((0xDC00 + (c.toNat - 0x10000) % 0x400) / 4096 % 16)
        :: hexDigitChar ((0xDC00 + (c.toNat - 0x10000) % 0x400) / 256 % 16)
        :: hexDigitChar ((0xDC00 + (c.toNat - 0x10000) % 0x400) / 16 % 16)
        :: hexDigitChar ((0xDC00 + (c.toNat - 0x10000) % 0x400) % 16) :: t) = _
    rw [parseStringBody_backslash, decodeEscape_u,
      decodeU_pair t (hex4Val_hex4 _ (by omega)) (hex4Val_hex4 _ (by omega))
        (by constructor <;> omega) (by constructor <;> omega)]
    have e2 : 0x10000 + (0xD800 + (c.toNat - 0x10000) / 0x400 - 0xD800) * 0x400 +
        (0xDC00 + (c.toNat - 0x10000) % 0x400 - 0xDC00) = c.toNat := by omega
    rw [e2]
    simp

theorem escapeChar_length_pos (c : Char) : 1 ≤ (escapeChar c).length := by
  unfold escapeChar
  split_ifs <;> simp [hex4]

theorem length_le_flattenEscape (s : Str) :
    s.length ≤ ((s.map escapeChar).flatten).length := by
  induction s with
  | nil => simp
  | cons c cs ih =>
    simp only [List.map_cons, List.flatten_cons, List.length_append,
      List.length_cons]
    have := escapeChar_length_pos c
    omega

theorem parseStringBody_dumpStrBody (s : Str) :
    ∀ fuel rest, s.length < fuel →
      parseStringBody fuel ((s.map escapeChar).flatten ++ '"' :: rest) =
        some (s, rest) := by
  induction s with
  | nil =>
    intro fuel rest h
    cases fuel with
    | zero => omega
    | succ f =>
      simp only [List.map_nil, List.flatten_nil, List.nil_append]
      exact parseStringBody_quote f rest
  | cons c cs ih =>
    intro fuel rest h
    cases fuel with
    | zero => omega
    | succ f =>
      simp only [List.map_cons, List.flatten_cons, List.append_assoc]
      rw [parseStringBody_escapeChar]
      rw [ih f rest (by simp at h; omega)]
      rfl

/-! ### Decimal digit round-trip -/

theorem natDigitsAux_acc (fuel : Nat) :
    ∀ n acc, natDigitsAux fuel n acc = natDigitsAux fuel n [] ++ acc := by
  induction fuel with
  | zero => intro n acc; simp [natDigitsAux]
  | succ f ih =>
    intro n acc
    simp only [natDigitsAux]
    split
    · simp
    · rw [ih (n / 10) [Nat.digitChar (n % 10)],
        ih (n / 10) (Nat.digitChar (n % 10) :: acc)]
      simp

theorem natDigitsAux_fuel (n : Nat) :
    ∀ fuel₁ fuel₂ acc, n < fuel₁ → n < fuel₂ →
      natDigitsAux fuel₁ n acc = natDigitsAux fuel₂ n acc := by
  induction n using Nat.strong_induction_on with
  | _ n ih =>
    intro fuel₁ fuel₂ acc h₁ h₂
    match fuel₁, fuel₂ with
    | f₁ + 1, f₂ + 1 =>
      simp only [natDigitsAux]
      split
      · rfl
      · rename_i hn
        exact ih (n / 10) (by omega) f₁ f₂ _ (by omega) (by omega)

theorem digitChar_bounds : ∀ n : Nat, n < 10 →
    '0' ≤ Nat.digitChar n ∧ Nat.digitChar n ≤ '9' := by decide

theorem digitChar_toNat : ∀ n : Nat, n < 10 →
    (Nat.digitChar n).toNat - '0'.toNat = n := by decide

theorem digitChar_ne_zeroChar : ∀ n : Nat, 1 ≤ n → n < 10 →
    Nat.digitChar n ≠ '0' := by decide

theorem natDigitsAux_all_digit (fuel : Nat) :
    ∀ n acc, n < fuel → (∀ c ∈ acc, '0' ≤ c ∧ c ≤ '9') →
      ∀ c ∈ natDigitsAux fuel n acc, '0' ≤ c ∧ c ≤ '9' := by
  induction fuel with
  | zero => intro n acc h; omega
  | succ f ih =>
    intro n acc h hacc c hc
    simp only [natDigitsAux] at hc
    split at hc
    · rename_i hn
      rcases List.mem_cons.mp hc with rfl | hc'
      · exact digitChar_bounds n hn
      · exact hacc c hc'
    · rename_i hn
      refine ih (n / 10) _ (by omega) ?_ c hc
      intro d hd
      rcases List.mem_cons.mp hd with rfl | hd'
      · exact digitChar_bounds _ (by omega)
      · exact hacc d hd'

theorem natDigits_all_digit (n : Nat) :
    ∀ c ∈ natDigits n, '0' ≤ c ∧ c ≤ '9' :=
  natDigitsAux_all_digit (n + 1) n [] (by omega) (by simp)

theorem natDigitsAux_ne_nil (fuel : Nat) :
    ∀ n acc, 0 < fuel ∨ acc ≠ [] → natDigitsAux fuel n acc ≠ [] := by
  induction fuel with
  | zero =>
    intro n acc h
    simp only [natDigitsAux]
    rcases h with h | h
    · omega
    · exact h
  | succ f ih =>
    intro n acc _
    simp only [natDigitsAux]
    split
    · simp
    · exact ih (n / 10) _ (Or.inr (by simp))

theorem natDigits_ne_nil (n : Nat) : natDigits n ≠ [] :=
  natDigitsAux_ne_nil (n + 1) n [] (Or.inl (by omega))

theorem natDigitsAux_head_ne_zero (n : Nat) :
    ∀ fuel acc, n < fuel → 1 ≤ n →
      ∀ c cs, natDigitsAux fuel n acc = c :: cs → c ≠ '0' := by
  induction n using Nat.strong_induction_on with
  | _ n ih =>
    intro fuel acc h h1 c cs heq
    match fuel with
    | f + 1 =>
      simp only [natDigitsAux] at heq
      split at heq
      · rename_i hn
        injection heq with he _
        rw [← he]
        exact digitChar_ne_zeroChar n h1 hn
      · rename_i hn
        exact ih (n / 10) (by omega) f _ (by omega) (by omega) c cs heq

theorem digitsVal_append_one (A : Str) (d : Char) :
    digitsVal (A ++ [d]) = digitsVal A * 10 + (d.toNat - '0'.toNat) := by
  simp [digitsVal, List.foldl_append]

theorem digitsVal_natDigitsAux (n : Nat) :
    ∀ fuel, n < fuel → digitsVal (natDigitsAux fuel n []) = n := by
  induction n using Nat.strong_induction_on with
  | _ n ih =>
    intro fuel h
    match fuel with
    | f + 1 =>
      simp only [natDigitsAux]
      split
      · rename_i hn
        simp only [digitsVal, List.foldl_cons, List.foldl_nil]
        rw [Nat.zero_mul, Nat.zero_add, digitChar_toNat n hn]
      · rename_i hn
        rw [natDigitsAux_acc, digitsVal_append_one,
          ih (n / 10) (by omega) f (by omega), digitChar_toNat (n % 10) (by omega)]
        omega

theorem digitsVal_natDigits (n : Nat) : digitsVal (natDigits n) = n :=
  digitsVal_natDigitsAux n (n + 1) (by omega)

theorem takeDigits_of_digits (ds : Str) (hds : ∀ c ∈ ds, '0' ≤ c ∧ c ≤ '9')
    (rest : Str) (hrest : ∀ c, rest.head? = some c → ¬('0' ≤ c ∧ c ≤ '9')) :
    takeDigits (ds ++ rest) = (ds, rest) := by
  induction ds with
  | nil =>
    simp only [List.nil_append]
    cases rest with
    | nil => rfl
    | cons c r =>
      simp only [takeDigits]
      rw [if_neg (hrest c rfl)]
  | cons c cs ih =>
    simp only [List.cons_append, takeDigits, List.append_eq]
    rw [if_pos (hds c (by simp))]
    rw [ih (fun d hd => hds d (by simp [hd]))]

theorem char_ne_of_toNat_ne {a b : Char} (h : a.toNat ≠ b.toNat) : a ≠ b :=
  fun he => h (by rw [he])

theorem char_le_toNat {a b : Char} (h : a ≤ b) : a.toNat ≤ b.toNat :=
  BitVec.le_def.mp (UInt32.le_def.mp (Char.le_def.mp h))

theorem isJsonWs_eq_false_of {c : Char} (h1 : c ≠ ' ') (h2 : c ≠ '\t')
    (h3 : c ≠ '\n') (h4 : c ≠ '\r') : isJsonWs c = false := by
  simp [isJsonWs, h1, h2, h3, h4]

theorem digit_char_facts {d : Char} (h : '0' ≤ d ∧ d ≤ '9') :
    isJsonWs d = false ∧ d ≠ ']' ∧ d ≠ '}' ∧ d ≠ '-' ∧ d ≠ '"' ∧ d ≠ '['
      ∧ d ≠ '{' ∧ d ≠ 'n' ∧ d ≠ 't' ∧ d ≠ 'f' := by
  have hlo : ('0').toNat ≤ d.toNat := char_le_toNat h.1
  have hhi : d.toNat ≤ ('9').toNat := char_le_toNat h.2
  have e0 : ('0').toNat = 48 := rfl
  have e9 : ('9').toNat = 57 := rfl
  have e1 : (' ').toNat = 32 := rfl
  have e2 : ('\t').toNat = 9 := rfl
  have e3 : ('\n').toNat = 10 := rfl
  have e4 : ('\r').toNat = 13 := rfl
  have e5 : (']').toNat = 93 := rfl
  have e6 : ('}').toNat = 125 := rfl
  have e7 : ('-').toNat = 45 := rfl
  have e8 : ('"').toNat = 34 := rfl
  have e10 : ('[').toNat = 91 := rfl
  have e11 : ('{').toNat = 123 := rfl
  have e12 : ('n').toNat = 110 := rfl
  have e13 : ('t').toNat = 116 := rfl
  have e14 : ('f').toNat = 102 := rfl
  refine ⟨isJsonWs_eq_false_of ?_ ?_ ?_ ?_, ?_, ?_, ?_, ?_, ?_, ?_, ?_, ?_, ?_⟩
    <;> exact char_ne_of_toNat_ne (by omega)

theorem skipWs_not_ws {c : Char} (h : isJsonWs c = false) (t : Str) :
    skipWs (c :: t) = c :: t := by
  simp [skipWs, h]

theorem skipWs_ws {c : Char} (h : isJsonWs c = true) (t : Str) :
    skipWs (c :: t) = skipWs t := by
  simp [skipWs, h]

theorem restBoundary_head {rest : Str} (h : restBoundary rest) :
    ∀ c, rest.head? = some c → c = ',' ∨ c = ']' ∨ c = '}' := by
  intro c hc
  rcases h with rfl | ⟨t, h | h | h⟩
  · simp at hc
  all_goals (rw [h] at hc; injection hc with hc; subst hc; simp)

theorem parseNumberBody_natDigits (n : Nat) (rest : Str)
    (hrest : restBoundary rest) :
    parseNumberBody (natDigits n ++ rest) = some (Int.ofNat n, rest) := by
  obtain ⟨d, ds, hd⟩ : ∃ d ds, natDigits n = d :: ds := by
    cases h : natDigits n with
    | nil => exact absurd h (natDigits_ne_nil n)
    | cons d ds => exact ⟨d, ds, rfl⟩
  have hdig := natDigits_all_digit n
  have hrest' : ∀ c, rest.head? = some c → ¬('0' ≤ c ∧ c ≤ '9') := by
    intro c hc
    rcases restBoundary_head hrest c hc with rfl | rfl | rfl <;> decide
  rw [hd]
  simp only [parseNumberBody]
  rw [takeDigits_of_digits (d :: ds) (hd ▸ hdig) rest hrest']
  show (if d = '0' ∧ ds ≠ [] then none
    else if rest.head? = some '.' ∨ rest.head? = some 'e'
        ∨ rest.head? = some 'E' then none
    else some (Int.ofNat (digitsVal (d :: ds)), rest)) = some (Int.ofNat n, rest)
  have hnotzero : ¬ (d = '0' ∧ ds ≠ []) := by
    by_cases hn : n = 0
    · subst hn
      have : natDigits 0 = ['0'] := by decide
      rw [this] at hd
      injection hd with h1 h2
      rw [← h2]
      simp
    · intro hcon
      exact absurd hcon.1
        (natDigitsAux_head_ne_zero n (n + 1) [] (by omega) (by omega) d ds hd)
  rw [if_neg hnotzero]
  have hnotfrac : ¬ (rest.head? = some '.' ∨ rest.head? = some 'e'
      ∨ rest.head? = some 'E') := by
    rintro (hc | hc | hc) <;>
      (rcases restBoundary_head hrest _ hc with h | h | h <;> simp at h)
  rw [if_neg hnotfrac]
  rw [show digitsVal (d :: ds) = n from by rw [← hd]; exact digitsVal_natDigits n]

theorem parseNumber_intRepr (n : Int) (rest : Str) (hrest : restBoundary rest) :
    parseNumber (intRepr n ++ rest) = some (n, rest) := by
  by_cases hn : n < 0
  · rw [intRepr, if_pos hn]
    show (if ('-' : Char) = '-' then
        match parseNumberBody (natDigits n.natAbs ++ rest) with
        | some (v, r) => some (-v, r)
        | none => none
      else parseNumberBody ('-' :: (natDigits n.natAbs ++ rest))) = some (n, rest)
    rw [if_pos rfl, parseNumberBody_natDigits n.natAbs rest hrest]
    show some (-Int.ofNat n.natAbs, rest) = some (n, rest)
    have : Int.ofNat n.natAbs = -n := by
      rw [Int.ofNat_eq_natCast]
      exact Int.ofNat_natAbs_of_nonpos (le_of_lt hn)
    rw [this, neg_neg]
  · rw [intRepr, if_neg hn]
    obtain ⟨d, ds, hd⟩ : ∃ d ds, natDigits n.toNat = d :: ds := by
      cases h : natDigits n.toNat with
      | nil => exact absurd h (natDigits_ne_nil _)
      | cons d ds => exact ⟨d, ds, rfl⟩
    have hdfacts := digit_char_facts
      (natDigits_all_digit n.toNat d (by rw [hd]; simp))
    rw [hd]
    show (if d = '-' then
        match parseNumberBody (ds ++ rest) with
        | some (v, r) => some (-v, r)
        | none => none
      else parseNumberBody (d :: (ds ++ rest))) = some (n, rest)
    rw [if_neg hdfacts.2.2.2.1]
    rw [show d :: (ds ++ rest) = (d :: ds) ++ rest from rfl, ← hd,
      parseNumberBody_natDigits n.toNat rest hrest]
    have : Int.ofNat n.toNat = n := by
      rw [Int.ofNat_eq_natCast]
      exact Int.toNat_of_nonneg (not_lt.mp hn)
    rw [this]

/-! ### The first character of a dumped JSON value -/

theorem dumps_head (v : Json) :
    ∃ c t, dumps v = c :: t ∧ isJsonWs c = false ∧ c ≠ ']' ∧ c ≠ '}' := by
  cases v with
  | null => exact ⟨'n', ['u', 'l', 'l'], rfl, rfl, by decide, by decide⟩
  | bool b =>
    cases b
    · exact ⟨'f', ['a', 'l', 's', 'e'], rfl, rfl, by decide, by decide⟩
    · exact ⟨'t', ['r', 'u', 'e'], rfl, rfl, by decide, by decide⟩
  | int n =>
    show ∃ c t, intRepr n = c :: t ∧ _
    by_cases hn : n < 0
    · rw [intRepr, if_pos hn]
      exact ⟨'-', _, rfl, by decide, by decide, by decide⟩
    · rw [intRepr, if_neg hn]
      obtain ⟨d, ds, hd⟩ : ∃ d ds, natDigits n.toNat = d :: ds := by
        cases h : natDigits n.toNat with
        | nil => exact absurd h (natDigits_ne_nil _)
        | cons d ds => exact ⟨d, ds, rfl⟩
      have hdfacts := digit_char_facts
        (natDigits_all_digit n.toNat d (by rw [hd]; simp))
      exact ⟨d, ds, hd, hdfacts.1, hdfacts.2.1, hdfacts.2.2.1⟩
  | str s => exact ⟨'"', _, rfl, by decide, by decide, by decide⟩
  | arr xs => exact ⟨'[', _, rfl, by decide, by decide, by decide⟩
  | obj kvs => exact ⟨'{', _, rfl, by decide, by decide, by decide⟩

/-! ### Fuel accounting: the input length bounds the fuel `parseValue` needs -/

theorem intRepr_ne_nil (n : Int) : intRepr n ≠ [] := by
  rw [intRepr]
  split
  · simp
  · exact natDigits_ne_nil _

theorem fuelForElems_le (xs : List Json)
    (hP : ∀ x ∈ xs, fuelFor x ≤ (dumps x).length) :
    fuelForElems xs ≤ (dumpsElems xs).length + 1 := by
  induction xs with
  | nil => simp [fuelForElems, dumpsElems]
  | cons x xs ih =>
    cases xs with
    | nil =>
      have := hP x (by simp)
      simp only [fuelForElems, dumpsElems]
      omega
    | cons y ys =>
      have hx := hP x (by simp)
      have ihy := ih (fun z hz => hP z (by simp [hz]))
      simp only [fuelForElems] at *
      simp only [dumpsElems, List.length_append, List.length_cons] at *
      omega

theorem fuelForMembers_le (kvs : List (Str × Json))
    (hP : ∀ kv ∈ kvs, fuelFor kv.2 ≤ (dumps kv.2).length) :
    fuelForMembers kvs ≤ (dumpsMembers kvs).length + 1 := by
  induction kvs with
  | nil => simp [fuelForMembers, dumpsMembers]
  | cons kv kvs ih =>
    obtain ⟨k, v⟩ := kv
    cases kvs with
    | nil =>
      have := hP (k, v) (by simp)
      simp only [fuelForMembers, dumpsMembers, List.length_append,
        List.length_cons] at *
      omega
    | cons kv2 kvs2 =>
      have hx := hP (k, v) (by simp)
      have ihy := ih (fun z hz => hP z (by simp [hz]))
      simp only [fuelForMembers] at *
      simp only [dumpsMembers, List.length_append, List.length_cons] at *
      omega

theorem fuelFor_le_dumps : (v : Json) → fuelFor v ≤ (dumps v).length
  | .null => by simp [fuelFor, dumps]
  | .bool b => by cases b <;> simp [fuelFor, dumps]
  | .int n => by
    have h := intRepr_ne_nil n
    have : 1 ≤ (intRepr n).length := by
      cases hi : intRepr n with
      | nil => exact absurd hi h
      | cons a l => simp
    simp only [fuelFor, dumps]
    omega
  | .str s => by
    simp only [fuelFor, dumps, dumpStr, List.length_cons, List.length_append]
    omega
  | .arr xs => by
    have hP : ∀ x ∈ xs, fuelFor x ≤ (dumps x).length := fun x hx =>
      fuelFor_le_dumps x
    have := fuelForElems_le xs hP
    simp only [fuelFor, dumps, List.length_cons, List.length_append]
    omega
  | .obj kvs => by
    have hP : ∀ kv ∈ kvs, fuelFor kv.2 ≤ (dumps kv.2).length := fun kv hkv =>
      fuelFor_le_dumps kv.2
    have := fuelForMembers_le kvs hP
    simp only [fuelFor, dumps, List.length_cons, List.length_append]
    omega
termination_by v => sizeOf v
decreasing_by
  · have := List.sizeOf_lt_of_mem hx
    simp only [Json.arr.sizeOf_spec]
    omega
  · have h1 := List.sizeOf_lt_of_mem hkv
    have h2 : sizeOf kv.2 < sizeOf kv := by
      obtain ⟨a, b⟩ := kv
      simp only [Prod.mk.sizeOf_spec]
      omega
    simp only [Json.obj.sizeOf_spec]
    omega

/-! ### Python-dict association lists: `setKey` / `collapseDups` -/

theorem setKey_not_mem (k : Str) (v : Json) :
    ∀ acc, (∀ kv ∈ acc, kv.1 ≠ k) → setKey acc k v = acc ++ [(k, v)] := by
  intro acc
  induction acc with
  | nil => intro _; rfl
  | cons kv0 rest ih =>
    intro h
    obtain ⟨k0, v0⟩ := kv0
    simp only [setKey]
    rw [if_neg (h (k0, v0) (by simp))]
    rw [ih (fun kv hkv => h kv (by simp [hkv]))]
    rfl

theorem nodupKeys_cons {k : Str} {v : Json} {rest : List (Str × Json)} :
    nodupKeys ((k, v) :: rest) = true ↔
      (∀ kv ∈ rest, kv.1 ≠ k) ∧ nodupKeys rest = true := by
  simp only [nodupKeys, Bool.and_eq_true, Bool.not_eq_true']
  constructor
  · rintro ⟨h1, h2⟩
    refine ⟨?_, h2⟩
    intro kv hkv he
    have := List.any_eq_false.mp h1 kv hkv
    simp [he] at this
  · rintro ⟨h1, h2⟩
    refine ⟨?_, h2⟩
    apply List.any_eq_false.mpr
    intro kv hkv
    simp [h1 kv hkv]

theorem foldl_setKey_append (l : List (Str × Json)) :
    ∀ acc, nodupKeys l = true →
      (∀ kv ∈ l, ∀ kv' ∈ acc, kv'.1 ≠ kv.1) →
      l.foldl (fun acc kv => setKey acc kv.1 kv.2) acc = acc ++ l := by
  induction l with
  | nil => intro acc _ _; simp
  | cons kv rest ih =>
    intro acc hnd hdis
    obtain ⟨k, v⟩ := kv
    simp only [List.foldl_cons]
    rw [setKey_not_mem k v acc
      (fun kv' hkv' => hdis (k, v) (by simp) kv' hkv')]
    rw [ih (acc ++ [(k, v)]) (nodupKeys_cons.mp hnd).2 ?_]
    · simp
    · intro kv2 hkv2 kv' hkv'
      rcases List.mem_append.mp hkv' with h | h
      · exact hdis kv2 (by simp [hkv2]) kv' h
      · rcases List.mem_singleton.mp h with rfl
        exact fun he => (nodupKeys_cons.mp hnd).1 kv2 hkv2 he.symm

theorem collapseDups_eq_self {kvs : List (Str × Json)}
    (h : nodupKeys kvs = true) : collapseDups kvs = kvs := by
  rw [collapseDups, foldl_setKey_append kvs [] h (by simp)]
  simp

theorem setKey_length_le (k : Str) (v : Json) :
    ∀ acc, (setKey acc k v).length ≤ acc.length + 1 := by
  intro acc
  induction acc with
  | nil => simp [setKey]
  | cons kv0 rest ih =>
    obtain ⟨k0, v0⟩ := kv0
    simp only [setKey]
    split
    · simp
    · simp only [List.length_cons]
      omega

theorem setKey_length_of_mem (k : Str) (v : Json) :
    ∀ acc, (∃ kv ∈ acc, kv.1 = k) → (setKey acc k v).length = acc.length := by
  intro acc
  induction acc with
  | nil => rintro ⟨kv, h, _⟩; simp at h
  | cons kv0 rest ih =>
    rintro ⟨kv, hm, hk⟩
    obtain ⟨k0, v0⟩ := kv0
    simp only [setKey]
    split
    · simp
    · rename_i hne
      simp only [List.length_cons]
      rcases List.mem_cons.mp hm with rfl | hm'
      · exact absurd hk hne
      · rw [ih ⟨kv, hm', hk⟩]

theorem setKey_mem_keys (k : Str) (v : Json) :
    ∀ acc k', ((∃ kv ∈ acc, kv.1 = k') ∨ k' = k) →
      ∃ kv ∈ setKey acc k v, kv.1 = k' := by
  intro acc
  induction acc with
  | nil =>
    rintro k' (⟨kv, h, _⟩ | rfl)
    · simp at h
    · exact ⟨(k', v), by simp [setKey]⟩
  | cons kv0 rest ih =>
    rintro k' h
    obtain ⟨k0, v0⟩ := kv0
    simp only [setKey]
    split
    · rename_i he
      rcases h with ⟨kv, hm, hk⟩ | rfl
      · rcases List.mem_cons.mp hm with rfl | hm'
        · exact ⟨(k0, v), by simp, hk⟩
        · exact ⟨kv, by simp [hm'], hk⟩
      · exact ⟨(k0, v), by simp, he⟩
    · rcases h with ⟨kv, hm, hk⟩ | hke
      · rcases List.mem_cons.mp hm with rfl | hm'
        · exact ⟨(k0, v0), by simp, hk⟩
        · obtain ⟨kv2, h2, hk2⟩ := ih k' (Or.inl ⟨kv, hm', hk⟩)
          exact ⟨kv2, by simp [h2], hk2⟩
      · obtain ⟨kv2, h2, hk2⟩ := ih k (Or.inr rfl)
        exact ⟨kv2, by simp [h2], by rw [hke]; exact hk2⟩

theorem foldl_setKey_length_le (l : List (Str × Json)) :
    ∀ acc, (l.foldl (fun acc kv => setKey acc kv.1 kv.2) acc).length ≤
      acc.length + l.length := by
  induction l with
  | nil => intro acc; simp
  | cons kv rest ih =>
    intro acc
    simp only [List.foldl_cons, List.length_cons]
    have h1 := setKey_length_le kv.1 kv.2 acc
    have h2 := ih (setKey acc kv.1 kv.2)
    omega

theorem foldl_setKey_length_lt (l : List (Str × Json)) :
    ∀ acc, ((∃ kv ∈ l, ∃ kv' ∈ acc, kv'.1 = kv.1) ∨ nodupKeys l = false) →
      (l.foldl (fun acc kv => setKey acc kv.1 kv.2) acc).length <
        acc.length + l.length := by
  induction l with
  | nil =>
    rintro acc (⟨kv, h, _⟩ | h)
    · simp at h
    · simp [nodupKeys] at h
  | cons kv rest ih =>
    rintro acc h
    obtain ⟨k, v⟩ := kv
    simp only [List.foldl_cons, List.length_cons]
    by_cases hmem : ∃ kv' ∈ acc, kv'.1 = k
    · have h1 := setKey_length_of_mem k v acc hmem
      have h2 := foldl_setKey_length_le rest (setKey acc k v)
      omega
    · have h1 := setKey_length_le k v acc
      have hnext : (∃ kv2 ∈ rest, ∃ kv' ∈ setKey acc k v, kv'.1 = kv2.1)
          ∨ nodupKeys rest = false := by
        rcases h with ⟨kv2, hm2, kv', hm', hk'⟩ | hnd
        · rcases List.mem_cons.mp hm2 with rfl | hm2'
          · exact absurd ⟨kv', hm', hk'⟩ hmem
          · exact Or.inl ⟨kv2, hm2',
              setKey_mem_keys k v acc kv2.1 (Or.inl ⟨kv', hm', hk'⟩)⟩
        · by_cases hk : ∃ kv2 ∈ rest, kv2.1 = k
          · obtain ⟨kv2, hm2, hk2⟩ := hk
            exact Or.inl ⟨kv2, hm2,
              setKey_mem_keys k v acc kv2.1 (Or.inr hk2)⟩
          · right
            by_contra hc
            have : nodupKeys ((k, v) :: rest) = true := by
              rw [nodupKeys_cons]
              refine ⟨?_, by revert hc; cases nodupKeys rest <;> simp⟩
              intro kv2 hm2 he
              exact hk ⟨kv2, hm2, he⟩
            rw [this] at hnd
            exact absurd hnd (by simp)
      have h2 := ih (setKey acc k v) hnext
      omega

theorem collapseDups_length_lt {kvs : List (Str × Json)}
    (h : nodupKeys kvs = false) : (collapseDups kvs).length < kvs.length := by
  have := foldl_setKey_length_lt kvs [] (Or.inr h)
  simpa [collapseDups] using this

/-! ### `List.mapM` over `Except` -/

theorem mapM_ok_of_forall {α β ε : Type} (f : α → Except ε β) (g : α → β) :
    ∀ l : List α, (∀ x ∈ l, f x = .ok (g x)) → l.mapM f = .ok (l.map g) := by
  intro l
  induction l with
  | nil => intro _; rfl
  | cons x xs ih =>
    intro h
    rw [List.mapM_cons, h x (by simp), ih (fun y hy => h y (by simp [hy]))]
    rfl

theorem mapM_ok_length {α β ε : Type} (f : α → Except ε β) :
    ∀ (l : List α) (ys : List β), l.mapM f = .ok ys → ys.length = l.length := by
  intro l
  induction l with
  | nil =>
    intro ys h
    simp only [List.mapM_nil] at h
    injection h with h
    rw [← h]
    rfl
  | cons x xs ih =>
    intro ys h
    rw [List.mapM_cons] at h
    cases hx : f x with
    | error e => rw [hx] at h; simp [Except.bind] at h; cases h
    | ok y =>
      rw [hx] at h
      cases hxs : xs.mapM f with
      | error e =>
        rw [hxs] at h
        simp only [bind, Except.bind] at h
        cases h
      | ok ys' =>
        rw [hxs] at h
        simp only [bind, Except.bind, pure, Except.pure] at h
        injection h with h
        rw [← h]
        simp [ih ys' hxs]

theorem mapM_ok_forall {α β ε : Type} (f : α → Except ε β) :
    ∀ (l : List α) (ys : List β), l.mapM f = .ok ys →
      ∀ x ∈ l, ∃ y, f x = .ok y := by
  intro l
  induction l with
  | nil => intro ys _ x hx; simp at hx
  | cons a xs ih =>
    intro ys h x hx
    rw [List.mapM_cons] at h
    cases ha : f a with
    | error e => rw [ha] at h; simp [Except.bind] at h; cases h
    | ok y =>
      rw [ha] at h
      cases hxs : xs.mapM f with
      | error e =>
        rw [hxs] at h
        simp only [bind, Except.bind] at h
        cases h
      | ok ys' =>
        rcases List.mem_cons.mp hx with rfl | hx'
        · exact ⟨y, ha⟩
        · exact ih ys' hxs x hx'

/-! ### Well-formedness transfer -/

theorem jsonWFList_mem {xs : List Json} (h : jsonWFList xs = true) :
    ∀ x ∈ xs, jsonWF x = true := by
  induction xs with
  | nil => intro x hx; simp at hx
  | cons y ys ih =>
    intro x hx
    simp only [jsonWFList, Bool.and_eq_true] at h
    rcases List.mem_cons.mp hx with rfl | hx'
    · exact h.1
    · exact ih h.2 x hx'

theorem jsonWFMembers_mem {kvs : List (Str × Json)}
    (h : jsonWFMembers kvs = true) : ∀ kv ∈ kvs, jsonWF kv.2 = true := by
  induction kvs with
  | nil => intro kv hkv; simp at hkv
  | cons kv0 rest ih =>
    intro kv hkv
    obtain ⟨k0, v0⟩ := kv0
    simp only [jsonWFMembers, Bool.and_eq_true] at h
    rcases List.mem_cons.mp hkv with rfl | hkv'
    · exact h.1
    · exact ih h.2 kv hkv'

theorem jsonWF_arr {xs : List Json} (h : jsonWF (.arr xs) = true) :
    jsonWFList xs = true := h

theorem jsonWF_obj {kvs : List (Str × Json)} (h : jsonWF (.obj kvs) = true) :
    nodupKeys kvs = true ∧ jsonWFMembers kvs = true := by
  simpa [jsonWF, Bool.and_eq_true] using h

/-! ### Heads of dumped fragments -/

theorem skipWs_dumps (v : Json) (s : Str) :
    skipWs (dumps v ++ s) = dumps v ++ s := by
  obtain ⟨c, t, hc, hws, _, _⟩ := dumps_head v
  rw [hc, List.cons_append, skipWs_not_ws hws]

theorem dumpsElems_head {xs : List Json} (h : xs ≠ []) :
    ∃ c t, dumpsElems xs = c :: t ∧ isJsonWs c = false ∧ c ≠ ']' ∧ c ≠ '}' := by
  cases xs with
  | nil => exact absurd rfl h
  | cons x xs' =>
    obtain ⟨c, t, hc, hws, h1, h2⟩ := dumps_head x
    cases xs' with
    | nil => exact ⟨c, t, hc, hws, h1, h2⟩
    | cons y ys =>
      refine ⟨c, t ++ ',' :: ' ' :: dumpsElems (y :: ys), ?_, hws, h1, h2⟩
      simp only [dumpsElems, hc, List.cons_append]

theorem skipWs_dumpsElems {xs : List Json} (h : xs ≠ []) (s : Str) :
    skipWs (dumpsElems xs ++ s) = dumpsElems xs ++ s := by
  obtain ⟨c, t, hc, hws, _, _⟩ := dumpsElems_head h
  rw [hc, List.cons_append, skipWs_not_ws hws]

theorem dumpsMembers_head {kvs : List (Str × Json)} (h : kvs ≠ []) :
    ∃ t, dumpsMembers kvs = '"' :: t := by
  cases kvs with
  | nil => exact absurd rfl h
  | cons kv rest =>
    obtain ⟨k, v⟩ := kv
    cases rest with
    | nil =>
      exact ⟨(k.map escapeChar).flatten ++ '"' :: ':' :: ' ' :: dumps v, by
        simp [dumpsMembers, dumpStr]⟩
    | cons kv2 rest2 =>
      exact ⟨(k.map escapeChar).flatten ++ '"' :: ':' :: ' ' :: dumps v
          ++ ',' :: ' ' :: dumpsMembers (kv2 :: rest2), by
        simp [dumpsMembers, dumpStr]⟩

/-! ### Parsing back a dumped array element list -/

theorem parseElems_dumps (xs : List Json) :
    ∀ (hP : ∀ x ∈ xs, ∀ fuel rest, fuelFor x ≤ fuel → restBoundary rest →
        parseValue fuel (dumps x ++ rest) = some (x, rest)),
      xs ≠ [] →
      ∀ fuel rest, fuelForElems xs ≤ fuel →
        parseElems fuel (dumpsElems xs ++ ']' :: rest) = some (xs, rest) := by
  induction xs with
  | nil => intro _ hne; exact absurd rfl hne
  | cons x xs ih =>
    intro hP _ fuel rest hfuel
    have hfx : 1 + fuelFor x + fuelForElems xs ≤ fuel := by
      simpa [fuelForElems] using hfuel
    cases fuel with
    | zero => omega
    | succ f =>
      cases xs with
      | nil =>
        show parseElems (f + 1) (dumpsElems [x] ++ ']' :: rest) = some ([x], rest)
        have e1 : dumpsElems [x] ++ ']' :: rest = dumps x ++ ']' :: rest := by
          simp [dumpsElems]
        rw [e1]
        simp only [parseElems]
        rw [hP x (by simp) f (']' :: rest)
          (by simp only [fuelForElems] at hfx; omega)
          (Or.inr ⟨rest, Or.inr (Or.inl rfl)⟩)]
        rfl
      | cons y ys =>
        have e1 : dumpsElems (x :: y :: ys) ++ ']' :: rest =
            dumps x ++ (',' :: ' ' :: (dumpsElems (y :: ys) ++ ']' :: rest)) := by
          simp [dumpsElems, List.append_assoc]
        rw [e1]
        simp only [parseElems]
        rw [hP x (by simp) f _
          (by simp only [fuelForElems] at hfx; omega)
          (Or.inr ⟨_, Or.inl rfl⟩)]
        show (match parseElems f (skipWs (dumpsElems (y :: ys) ++ ']' :: rest)) with
          | some (vs, r3) => some (x :: vs, r3)
          | none => none) = some (x :: y :: ys, rest)
        rw [skipWs_dumpsElems (by simp),
          ih (fun z hz => hP z (by simp [hz])) (by simp) f rest
            (by simp only [fuelForElems] at hfx ⊢; omega)]

/-! ### Parsing back a dumped object member list -/

theorem parseMembers_dumps (kvs : List (Str × Json)) :
    ∀ (hP : ∀ kv ∈ kvs, ∀ fuel rest, fuelFor kv.2 ≤ fuel → restBoundary rest →
        parseValue fuel (dumps kv.2 ++ rest) = some (kv.2, rest)),
      kvs ≠ [] →
      ∀ fuel rest, fuelForMembers kvs ≤ fuel →
        parseMembers fuel (dumpsMembers kvs ++ '}' :: rest) = some (kvs, rest) := by
  induction kvs with
  | nil => intro _ hne; exact absurd rfl hne
  | cons kv kvs ih =>
    intro hP _ fuel rest hfuel
    obtain ⟨k, v⟩ := kv
    have hfx : 1 + fuelFor v + fuelForMembers kvs ≤ fuel := by
      simpa [fuelForMembers] using hfuel
    cases fuel with
    | zero => omega
    | succ f =>
      cases kvs with
      | nil =>
        have e1 : dumpsMembers [(k, v)] ++ '}' :: rest =
            '"' :: ((k.map escapeChar).flatten ++ '"' ::
              (':' :: ' ' :: (dumps v ++ '}' :: rest))) := by
          simp [dumpsMembers, dumpStr, List.append_assoc]
        rw [e1]
        simp only [parseMembers]
        have e2 := parseStringBody_dumpStrBody k
          (((k.map escapeChar).flatten ++ '"' ::
            (':' :: ' ' :: (dumps v ++ '}' :: rest))).length + 1)
          (':' :: ' ' :: (dumps v ++ '}' :: rest))
          (by
            have := length_le_flattenEscape k
            simp only [List.length_append, List.length_cons]
            omega)
        rw [e2]
        show (match parseValue f (skipWs (dumps v ++ '}' :: rest)) with
          | none => none
          | some (v', r3) =>
            match skipWs r3 with
            | [] => none
            | c3 :: r4 =>
              if c3 = ',' then
                match parseMembers f (skipWs r4) with
                | some (kvs', r5) => some ((k, v') :: kvs', r5)
                | none => none
              else if c3 = '}' then some ([(k, v')], r4)
              else none) = some ([(k, v)], rest)
        rw [skipWs_dumps, hP (k, v) (by simp) f ('}' :: rest)
          (by show fuelFor v ≤ f; omega)
          (Or.inr ⟨rest, Or.inr (Or.inr rfl)⟩)]
        rfl
      | cons kv2 kvs2 =>
        have e1 : dumpsMembers ((k, v) :: kv2 :: kvs2) ++ '}' :: rest =
            '"' :: ((k.map escapeChar).flatten ++ '"' ::
              (':' :: ' ' :: (dumps v ++ ',' :: ' ' ::
                (dumpsMembers (kv2 :: kvs2) ++ '}' :: rest)))) := by
          simp [dumpsMembers, dumpStr, List.append_assoc]
        rw [e1]
        simp only [parseMembers]
        have e2 := parseStringBody_dumpStrBody k
          (((k.map escapeChar).flatten ++ '"' ::
            (':' :: ' ' :: (dumps v ++ ',' :: ' ' ::
              (dumpsMembers (kv2 :: kvs2) ++ '}' :: rest)))).length + 1)
          (':' :: ' ' :: (dumps v ++ ',' :: ' ' ::
            (dumpsMembers (kv2 :: kvs2) ++ '}' :: rest)))
          (by
            have := length_le_flattenEscape k
            simp only [List.length_append, List.length_cons]
            omega)
        rw [e2]
        show (match parseValue f (skipWs (dumps v ++ ',' :: ' ' ::
            (dumpsMembers (kv2 :: kvs2) ++ '}' :: rest))) with
          | none => none
          | some (v', r3) =>
            match skipWs r3 with
            | [] => none
            | c3 :: r4 =>
              if c3 = ',' then
                match parseMembers f (skipWs r4) with
                | some (kvs', r5) => some ((k, v') :: kvs', r5)
                | none => none
              else if c3 = '}' then some ([(k, v')], r4)
              else none) = some ((k, v) :: kv2 :: kvs2, rest)
        rw [skipWs_dumps, hP (k, v) (by simp) f _
          (by show fuelFor v ≤ f; omega)
          (Or.inr ⟨_, Or.inl rfl⟩)]
        obtain ⟨tm, htm⟩ := dumpsMembers_head
          (show kv2 :: kvs2 ≠ [] from by simp)
        show (match parseMembers f
            (skipWs (dumpsMembers (kv2 :: kvs2) ++ '}' :: rest)) with
          | some (kvs', r5) => some ((k, v) :: kvs', r5)
          | none => none) = some ((k, v) :: kv2 :: kvs2, rest)
        rw [show skipWs (dumpsMembers (kv2 :: kvs2) ++ '}' :: rest) =
            dumpsMembers (kv2 :: kvs2) ++ '}' :: rest from by
          rw [htm, List.cons_append, skipWs_not_ws (by decide)]]
        rw [ih (fun z hz => hP z (by simp [hz])) (by simp) f rest
          (by simp only [fuelForMembers] at hfx ⊢; omega)]

/-! ### The master round-trip: parsing back a dumped JSON value -/

theorem parse_dumps : (v : Json) → ∀ fuel rest, jsonWF v = true →
    fuelFor v ≤ fuel → restBoundary rest →
    parseValue fuel (dumps v ++ rest) = some (v, rest)
  | .null => by
    intro fuel rest _ hf _
    cases fuel with
    | zero => exact absurd hf (by simp [fuelFor])
    | succ f => rfl
  | .bool b => by
    intro fuel rest _ hf _
    cases fuel with
    | zero => exact absurd hf (by cases b <;> simp [fuelFor])
    | succ f => cases b <;> rfl
  | .int n => by
    intro fuel rest _ hf hb
    cases fuel with
    | zero => exact absurd hf (by simp [fuelFor])
    | succ f =>
      obtain ⟨d, ds, hir, hne1, hne2, hne3, hne4, hne5, hne6⟩ :
          ∃ d ds, intRepr n = d :: ds ∧ ¬(d = '"') ∧ ¬(d = '[') ∧ ¬(d = '{')
            ∧ ¬(d = 'n') ∧ ¬(d = 't') ∧ ¬(d = 'f') := by
        by_cases hn : n < 0
        · rw [intRepr, if_pos hn]
          exact ⟨'-', _, rfl, by decide, by decide, by decide, by decide,
            by decide, by decide⟩
        · rw [intRepr, if_neg hn]
          obtain ⟨d, ds, hd⟩ : ∃ d ds, natDigits n.toNat = d :: ds := by
            cases h : natDigits n.toNat with
            | nil => exact absurd h (natDigits_ne_nil _)
            | cons d ds => exact ⟨d, ds, rfl⟩
          have hdf := digit_char_facts
            (natDigits_all_digit n.toNat d (by rw [hd]; simp))
          exact ⟨d, ds, hd, hdf.2.2.2.2.1, hdf.2.2.2.2.2.1,
            hdf.2.2.2.2.2.2.1, hdf.2.2.2.2.2.2.2.1,
            hdf.2.2.2.2.2.2.2.2.1, hdf.2.2.2.2.2.2.2.2.2⟩
      have e1 : dumps (Json.int n) ++ rest = d :: (ds ++ rest) := by
        show intRepr n ++ rest = _
        rw [hir, List.cons_append]
      rw [e1]
      simp only [parseValue]
      rw [if_neg hne1, if_neg hne2, if_neg hne3, if_neg hne4, if_neg hne5,
        if_neg hne6]
      rw [show (d :: (ds ++ rest) : Str) = intRepr n ++ rest from by
        rw [hir, List.cons_append]]
      rw [parseNumber_intRepr n rest hb]
  | .str s => by
    intro fuel rest _ hf _
    cases fuel with
    | zero => exact absurd hf (by simp [fuelFor])
    | succ f =>
      have e1 : dumps (Json.str s) ++ rest =
          '"' :: ((s.map escapeChar).flatten ++ '"' :: rest) := by
        simp [dumps, dumpStr]
      rw [e1]
      simp only [parseValue]
      show (match parseStringBody
          (((s.map escapeChar).flatten ++ '"' :: rest).length + 1)
          ((s.map escapeChar).flatten ++ '"' :: rest) with
        | some (cs, rest') => some (Json.str cs, rest')
        | none => none) = some (Json.str s, rest)
      rw [parseStringBody_dumpStrBody s _ rest (by
        have := length_le_flattenEscape s
        simp only [List.length_append, List.length_cons]
        omega)]
  | .arr xs => by
    intro fuel rest hwf hf _
    cases fuel with
    | zero => exact absurd hf (by simp [fuelFor])
    | succ f =>
      cases xs with
      | nil => rfl
      | cons y ys =>
        have e1 : dumps (Json.arr (y :: ys)) ++ rest =
            '[' :: (dumpsElems (y :: ys) ++ ']' :: rest) := by
          simp [dumps, List.append_assoc]
        rw [e1]
        simp only [parseValue]
        show (match skipWs (dumpsElems (y :: ys) ++ ']' :: rest) with
          | [] => none
          | c2 :: r2 =>
            if c2 = ']' then some (Json.arr [], r2)
            else
              match parseElems f (c2 :: r2) with
              | some (xs', rest') => some (Json.arr xs', rest')
              | none => none) = some (Json.arr (y :: ys), rest)
        obtain ⟨c, t, hc, hws, hc1, hc2⟩ :=
          dumpsElems_head (show (y :: ys : List Json) ≠ [] from by simp)
        rw [skipWs_dumpsElems (show (y :: ys : List Json) ≠ [] from by simp)]
        rw [hc, List.cons_append]
        show (if c = ']' then some (Json.arr [], t ++ ']' :: rest)
          else
            match parseElems f (c :: (t ++ ']' :: rest)) with
            | some (xs', rest') => some (Json.arr xs', rest')
            | none => none) = some (Json.arr (y :: ys), rest)
        rw [if_neg hc1]
        rw [show (c :: (t ++ ']' :: rest) : Str) =
            dumpsElems (y :: ys) ++ ']' :: rest from by rw [hc, List.cons_append]]
        have hPel : ∀ x ∈ y :: ys, ∀ fuel rest, fuelFor x ≤ fuel →
            restBoundary rest → parseValue fuel (dumps x ++ rest) = some (x, rest) :=
          fun x hx fuel' rest' hfu hb' =>
            parse_dumps x fuel' rest' (jsonWFList_mem (jsonWF_arr hwf) x hx) hfu hb'
        rw [parseElems_dumps (y :: ys) hPel (by simp) f rest
          (by simp only [fuelFor] at hf; omega)]
  | .obj kvs => by
    intro fuel rest hwf hf _
    cases fuel with
    | zero => exact absurd hf (by simp [fuelFor])
    | succ f =>
      cases kvs with
      | nil => rfl
      | cons kv2 kvs2 =>
        have e1 : dumps (Json.obj (kv2 :: kvs2)) ++ rest =
            '{' :: (dumpsMembers (kv2 :: kvs2) ++ '}' :: rest) := by
          simp [dumps, List.append_assoc]
        rw [e1]
        simp only [parseValue]
        show (match skipWs (dumpsMembers (kv2 :: kvs2) ++ '}' :: rest) with
          | [] => none
          | c2 :: r2 =>
            if c2 = '}' then some (Json.obj [], r2)
            else
              match parseMembers f (c2 :: r2) with
              | some (kvs', rest') => some (Json.obj (collapseDups kvs'), rest')
              | none => none) = some (Json.obj (kv2 :: kvs2), rest)
        obtain ⟨tm, htm⟩ := dumpsMembers_head
          (show (kv2 :: kvs2 : List (Str × Json)) ≠ [] from by simp)
        rw [show skipWs (dumpsMembers (kv2 :: kvs2) ++ '}' :: rest) =
            dumpsMembers (kv2 :: kvs2) ++ '}' :: rest from by
          rw [htm, List.cons_append, skipWs_not_ws (by decide)]]
        rw [htm, List.cons_append]
        show (match parseMembers f ('"' :: (tm ++ '}' :: rest)) with
          | some (kvs', rest') => some (Json.obj (collapseDups kvs'), rest')
          | none => none) = some (Json.obj (kv2 :: kvs2), rest)
        rw [show ('"' :: (tm ++ '}' :: rest) : Str) =
            dumpsMembers (kv2 :: kvs2) ++ '}' :: rest from by
          rw [htm, List.cons_append]]
        have hPm : ∀ kv ∈ kv2 :: kvs2, ∀ fuel rest, fuelFor kv.2 ≤ fuel →
            restBoundary rest →
            parseValue fuel (dumps kv.2 ++ rest) = some (kv.2, rest) :=
          fun kv hkv fuel' rest' hfu hb' =>
            parse_dumps kv.2 fuel' rest'
              (jsonWFMembers_mem (jsonWF_obj hwf).2 kv hkv) hfu hb'
        rw [parseMembers_dumps (kv2 :: kvs2) hPm (by simp) f rest
          (by simp only [fuelFor] at hf; omega)]
        show some (Json.obj (collapseDups (kv2 :: kvs2)), rest) =
          some (Json.obj (kv2 :: kvs2), rest)
        rw [collapseDups_eq_self (jsonWF_obj hwf).1]
termination_by v => sizeOf v
decreasing_by
  · have := List.sizeOf_lt_of_mem hx
    simp only [Json.arr.sizeOf_spec]
    omega
  · have h1 := List.sizeOf_lt_of_mem hkv
    have h2 : sizeOf kv.2 < sizeOf kv := by
      obtain ⟨a, b⟩ := kv
      simp only [Prod.mk.sizeOf_spec]
      omega
    simp only [Json.obj.sizeOf_spec]
    omega

/-- A well-formed JSON value survives `json.dumps` / `json.loads` exactly. -/
theorem json_loads_dumps (v : Json) (h : jsonWF v = true) :
    json_loads (dumps v) = some v := by
  have hsk : skipWs (dumps v) = dumps v := by
    have := skipWs_dumps v []
    simpa using this
  have hp := parse_dumps v ((dumps v).length + 1) [] h
    (by have := fuelFor_le_dumps v; omega) (Or.inl rfl)
  rw [List.append_nil] at hp
  simp only [json_loads, hsk, hp]
  rfl

/-! ### The Artifact JSON projection round-trip machinery -/

theorem propVal_roundtrip (k : Str) (pv : PropVal) :
    propValFromJson k (propValToJson pv) = .ok pv := by
  cases pv <;> rfl

theorem parse_json_dict_reduce (a : Artifact) :
    Artifact.parse_from_json_dict (Artifact.json_dict a) =
      ((collapseDups (a.properties.map
          (fun kv => (kv.1, propValToJson kv.2)))).mapM
          (fun kv => (propValFromJson kv.1 kv.2).map (fun p => (kv.1, p))) >>=
        fun props => pure ⟨a.uri, a.split_names, props⟩) := by
  rfl

theorem parse_json_dict_cases (a : Artifact) :
    Artifact.parse_from_json_dict (Artifact.json_dict a) =
      (match (collapseDups (a.properties.map
          (fun kv => (kv.1, propValToJson kv.2)))).mapM
          (fun kv => (propValFromJson kv.1 kv.2).map (fun p => (kv.1, p))) with
        | .error e => .error e
        | .ok props => .ok ⟨a.uri, a.split_names, props⟩) := by
  rw [parse_json_dict_reduce]
  cases (collapseDups (a.properties.map
      (fun kv => (kv.1, propValToJson kv.2)))).mapM
      (fun kv => (propValFromJson kv.1 kv.2).map (fun p => (kv.1, p))) <;> rfl

theorem artifact_roundtrip_props_ok {a : Artifact}
    (h : Artifact.parse_from_json_dict (Artifact.json_dict a) = .ok a) :
    (collapseDups (a.properties.map (fun kv => (kv.1, propValToJson kv.2)))).mapM
      (fun kv => (propValFromJson kv.1 kv.2).map (fun p => (kv.1, p))) =
      .ok a.properties := by
  rw [parse_json_dict_cases] at h
  cases hm : (collapseDups (a.properties.map
      (fun kv => (kv.1, propValToJson kv.2)))).mapM
      (fun kv => (propValFromJson kv.1 kv.2).map (fun p => (kv.1, p))) with
  | error e => rw [hm] at h; cases h
  | ok props =>
    rw [hm] at h
    injection h with h
    have : props = a.properties := by
      have := congrArg Artifact.properties h
      simpa using this
    rw [this]

theorem artifact_roundtrip_nodup {a : Artifact}
    (h : Artifact.parse_from_json_dict (Artifact.json_dict a) = .ok a) :
    nodupKeys (a.properties.map (fun kv => (kv.1, propValToJson kv.2))) = true := by
  by_contra hnd
  have hnd' : nodupKeys (a.properties.map
      (fun kv => (kv.1, propValToJson kv.2))) = false := by
    revert hnd
    cases nodupKeys (a.properties.map (fun kv => (kv.1, propValToJson kv.2))) <;>
      simp
  have hlt := collapseDups_length_lt hnd'
  have hok := artifact_roundtrip_props_ok h
  have hlen := mapM_ok_length _ _ _ hok
  simp only [List.length_map] at hlt hlen
  omega

theorem jsonWFMembers_of_forall {kvs : List (Str × Json)}
    (h : ∀ kv ∈ kvs, jsonWF kv.2 = true) : jsonWFMembers kvs = true := by
  induction kvs with
  | nil => rfl
  | cons kv rest ih =>
    obtain ⟨k, v⟩ := kv
    simp only [jsonWFMembers, Bool.and_eq_true]
    exact ⟨h (k, v) (by simp), ih (fun kv2 h2 => h kv2 (by simp [h2]))⟩

theorem jsonWFList_of_forall {xs : List Json}
    (h : ∀ x ∈ xs, jsonWF x = true) : jsonWFList xs = true := by
  induction xs with
  | nil => rfl
  | cons x rest ih =>
    simp only [jsonWFList, Bool.and_eq_true]
    exact ⟨h x (by simp), ih (fun y hy => h y (by simp [hy]))⟩

theorem jsonWF_obj_intro {kvs : List (Str × Json)} (h1 : nodupKeys kvs = true)
    (h2 : jsonWFMembers kvs = true) : jsonWF (.obj kvs) = true := by
  simp [jsonWF, h1, h2]

theorem json_dict_wf {a : Artifact}
    (h : Artifact.parse_from_json_dict (Artifact.json_dict a) = .ok a) :
    jsonWF (Artifact.json_dict a) = true := by
  rw [show Artifact.json_dict a = Json.obj
    [(uriKey, Json.str a.uri), (splitNamesKey, Json.str a.split_names),
     (propertiesKey, Json.obj (a.properties.map
       (fun kv => (kv.1, propValToJson kv.2))))] from rfl]
  apply jsonWF_obj_intro
  · rfl
  · apply jsonWFMembers_of_forall
    intro kv hkv
    simp only [List.mem_cons, List.mem_singleton] at hkv
    rcases hkv with rfl | rfl | rfl | hkv
    · rfl
    · rfl
    · apply jsonWF_obj_intro (artifact_roundtrip_nodup h)
      apply jsonWFMembers_of_forall
      intro kv2 hkv2
      simp only [List.mem_map] at hkv2
      obtain ⟨kv3, _, rfl⟩ := hkv2
      cases kv3.2 <;> rfl
    · simp at hkv

theorem nodupKeys_map_channels (f : Str × List Artifact → Json) :
    ∀ C : List (Str × List Artifact),
      nodupKeys (C.map (fun kv => (kv.1, f kv))) = nodupChannels C := by
  intro C
  induction C with
  | nil => rfl
  | cons kv rest ih =>
    obtain ⟨k, l⟩ := kv
    simp only [List.map_cons, nodupKeys, nodupChannels, ih]
    have e : ∀ rs : List (Str × List Artifact),
        ((List.map (fun kv => (kv.1, f kv)) rs).any fun kv => kv.1 == k) =
          (rs.any fun kv => kv.1 == k) := by
      intro rs
      induction rs with
      | nil => rfl
      | cons p ps ihp => simp only [List.map_cons, List.any_cons, ihp]
    rw [e]

theorem mapM_map_ok {α β γ ε : Type} (f : α → β) (G : β → Except ε γ)
    (g : α → γ) :
    ∀ l : List α, (∀ x ∈ l, G (f x) = .ok (g x)) →
      (l.map f).mapM G = .ok (l.map g) := by
  intro l
  induction l with
  | nil => intro _; rfl
  | cons x xs ih =>
    intro h
    simp only [List.map_cons]
    rw [List.mapM_cons, h x (by simp), ih (fun y hy => h y (by simp [hy]))]
    rfl

/-- C5: serializing an artifact collection (a channel-name-keyed mapping, so
channel names are pairwise distinct) and parsing the text back reconstructs
exactly the same channel names, per-channel order, and per-artifact fields,
provided each artifact round-trips through the Artifact collaborator's own
JSON projection. -/
theorem C5_artifact_dict_roundtrip :
    ∀ C : List (Str × List Artifact),
      nodupChannels C = true →
      (∀ kv ∈ C, ∀ a ∈ kv.2,
        Artifact.parse_from_json_dict (Artifact.json_dict a) = .ok a) →
      parse_artifact_dict (jsonify_artifact_dict C) = .ok C := by
  intro C hnd hart
  have hwf : jsonWF (Json.obj (C.map
      (fun kv => (kv.1, Json.arr (kv.2.map Artifact.json_dict))))) = true := by
    apply jsonWF_obj_intro
    · rw [nodupKeys_map_channels]
      exact hnd
    · apply jsonWFMembers_of_forall
      intro kv hkv
      simp only [List.mem_map] at hkv
      obtain ⟨kv0, hkv0, rfl⟩ := hkv
      show jsonWFList _ = true
      apply jsonWFList_of_forall
      intro x hx
      simp only [List.mem_map] at hx
      obtain ⟨a, ha, rfl⟩ := hx
      exact json_dict_wf (hart kv0 hkv0 a ha)
  rw [jsonify_artifact_dict]
  simp only [parse_artifact_dict]
  rw [json_loads_dumps _ hwf]
  show (C.map (fun kv => (kv.1, Json.arr (kv.2.map Artifact.json_dict)))).mapM
      (fun kv => (parseChannel kv.1 kv.2).map (fun arts => (kv.1, arts))) = .ok C
  have hchan : ∀ kv ∈ C,
      (fun kv2 => (parseChannel kv2.1 kv2.2).map (fun arts => (kv2.1, arts)))
        ((fun kv2 => (kv2.1, Json.arr (kv2.2.map Artifact.json_dict))) kv) =
      .ok ((fun kv2 => kv2) kv) := by
    intro kv hkv
    show (parseChannel kv.1 (Json.arr (kv.2.map Artifact.json_dict))).map
      (fun arts => (kv.1, arts)) = .ok kv
    have hart' : ∀ a ∈ kv.2,
        (fun v => (Artifact.parse_from_json_dict v).mapError
          FormatError.artifactError) (Artifact.json_dict ((fun a => a) a)) =
        .ok ((fun a => a) a) := by
      intro a ha
      show (Artifact.parse_from_json_dict (Artifact.json_dict a)).mapError
        FormatError.artifactError = .ok a
      rw [hart kv hkv a ha]
      rfl
    have := mapM_map_ok Artifact.json_dict
      (fun v => (Artifact.parse_from_json_dict v).mapError
        FormatError.artifactError)
      (fun a => a) kv.2 (fun a ha => hart' a ha)
    show Except.map (fun arts => (kv.1, arts))
      ((kv.2.map Artifact.json_dict).mapM
        (fun v => (Artifact.parse_from_json_dict v).mapError
          FormatError.artifactError)) = .ok kv
    rw [this]
    simp [Except.map]
  have := mapM_map_ok
    (fun kv2 => (kv2.1, Json.arr (kv2.2.map Artifact.json_dict)))
    (fun kv2 => (parseChannel kv2.1 kv2.2).map (fun arts => (kv2.1, arts)))
    (fun kv2 => kv2) C hchan
  rw [this]
  simp

/-- C5 witness: the round trip evaluated on a one-channel collection holding
one artifact with a non-trivial property map. -/
theorem C5_artifact_dict_roundtrip_witness :
    parse_artifact_dict (jsonify_artifact_dict
      [(['c'], [⟨['u'], ['t','r','a','i','n'], [(['p'], PropVal.int 3)]⟩])]) =
      .ok [(['c'], [⟨['u'], ['t','r','a','i','n'], [(['p'], PropVal.int 3)]⟩])] :=
  C5_artifact_dict_roundtrip
    [(['c'], [⟨['u'], ['t','r','a','i','n'], [(['p'], PropVal.int 3)]⟩])]
    (by rfl)
    (by
      intro kv hkv a ha
      simp only [List.mem_singleton] at hkv
      subst hkv
      simp only [List.mem_singleton] at ha
      subst ha
      rfl)

/-- C3 (amended): deserialization fails with a `FormatError` when the text is
not valid JSON or the top level is not a JSON object, and it fails whenever
some channel's array contains an element the Artifact JSON parser rejects —
but the resulting error is the Artifact parser's error propagated as-is,
without channel-name or index context (see `C3_counterexample`). -/
theorem C3_parse_artifact_dict_errors :
    (∀ s : Str, json_loads s = none →
      parse_artifact_dict s = .error .jsonDecode)
    ∧ (∀ (s : Str) (v : Json), json_loads s = some v → (∀ kvs, v ≠ .obj kvs) →
      parse_artifact_dict s = .error (.notJsonObject v))
    ∧ (∀ (s : Str) (kvs : List (Str × Json)) (k : Str) (l : List Json),
      json_loads s = some (.obj kvs) → (k, Json.arr l) ∈ kvs →
      (∃ x ∈ l, ∀ a, Artifact.parse_from_json_dict x ≠ .ok a) →
      ∃ e, parse_artifact_dict s = .error e) := by
  refine ⟨?_, ?_, ?_⟩
  · intro s h
    simp only [parse_artifact_dict, h]
  · intro s v h hno
    rw [parse_artifact_dict, h]
    cases v with
    | obj kvs => exact absurd rfl (hno kvs)
    | null => rfl
    | bool b => rfl
    | int n => rfl
    | str cs => rfl
    | arr xs => rfl
  · intro s kvs k l hloads hmem ⟨x, hx, hbad⟩
    have hps : parse_artifact_dict s = kvs.mapM
        (fun kv => (parseChannel kv.1 kv.2).map (fun arts => (kv.1, arts))) := by
      rw [parse_artifact_dict, hloads]
    cases hres : kvs.mapM
        (fun kv => (parseChannel kv.1 kv.2).map (fun arts => (kv.1, arts))) with
    | error e => exact ⟨e, by rw [hps, hres]⟩
    | ok d =>
      exfalso
      obtain ⟨y, hy⟩ := mapM_ok_forall _ kvs d hres (k, Json.arr l) hmem
      have hy' : (parseChannel k (Json.arr l)).map
          (fun arts => (k, arts)) = .ok y := hy
      cases hch : parseChannel k (Json.arr l) with
      | error e => rw [hch] at hy'; cases hy'
      | ok arts =>
        have hch' : l.mapM (fun v =>
            (Artifact.parse_from_json_dict v).mapError
              FormatError.artifactError) = .ok arts := hch
        obtain ⟨a, ha⟩ := mapM_ok_forall _ l arts hch' x hx
        cases hpx : Artifact.parse_from_json_dict x with
        | error e => rw [hpx] at ha; cases ha
        | ok a' => exact hbad a' hpx

/-- C3 counterexample: a rejected element in channel `"x"` at index 0, in
channel `"y"` at index 0, and in channel `"y"` at index 1 (after one valid
artifact) all produce the *identical* error value, so the error raised by
`parse_artifact_dict` does not surface the channel name or the index of the
bad entry, contrary to the claim. -/
theorem C3_counterexample :
    parse_artifact_dict (("\x7b\"x\": [\x7b\"bad\": true\x7d]\x7d").toList) =
      .error (.artifactError (.missingField uriKey))
    ∧ parse_artifact_dict (("\x7b\"y\": [\x7b\"bad\": true\x7d]\x7d").toList) =
      .error (.artifactError (.missingField uriKey))
    ∧ parse_artifact_dict (("\x7b\"y\": [\x7b\"uri\": \"u\", \"split_names\": \"\", \"properties\": \x7b\x7d\x7d, \x7b\"bad\": true\x7d]\x7d").toList) =
      .error (.artifactError (.missingField uriKey)) :=
  ⟨rfl, rfl, rfl⟩

/-- C3 witness: the amended theorem's three clauses instantiated — malformed
text, a JSON array at the top level, and a channel with a rejected element. -/
theorem C3_parse_artifact_dict_errors_witness :
    parse_artifact_dict (("\x7bnot json").toList) = .error .jsonDecode
    ∧ parse_artifact_dict (("[]").toList) =
        .error (.notJsonObject (.arr []))
    ∧ ∃ e, parse_artifact_dict (("\x7b\"x\": [\x7b\"bad\": true\x7d]\x7d").toList) =
        .error e :=
  ⟨C3_parse_artifact_dict_errors.1 _ rfl,
   C3_parse_artifact_dict_errors.2.1 _ (.arr []) rfl
     (fun kvs h => Json.noConfusion h),
   C3_parse_artifact_dict_errors.2.2 _
     [(['x'], Json.arr [Json.obj [(['b','a','d'], Json.bool true)]])]
     ['x'] [Json.obj [(['b','a','d'], Json.bool true)]] rfl (by simp)
     ⟨Json.obj [(['b','a','d'], Json.bool true)], by simp,
      fun a h => by
        rw [show Artifact.parse_from_json_dict
            (Json.obj [(['b','a','d'], Json.bool true)]) =
          .error (.missingField uriKey) from rfl] at h
        cases h⟩⟩
